import Mathlib

/-
Verification of the SheetPilot data-cleaning pipeline core: a shallow
embedding of the orchestrator, module registry and the built-in transforms
(missing-value imputer, text normalizer, outlier detector, LLM-backed
normalizer plugin), with theorems settling the specification claims.

Modelling conventions:
* pandas DataFrames become `Table`: an association list of named columns,
  each column a typed list of cells (`Option ℚ` for numeric columns where
  `none` is NaN, `Option (List Char)` for object/string columns, `Bool`
  for boolean columns).
* Python exceptions become `Except TErr`; the distinct `ValueError`
  messages raised by the transforms are modelled by distinct `TErr`
  constructors (the spec's error taxonomy).
* Python text is modelled over ASCII: `str.lower`, `string.punctuation`,
  whitespace and `\s` are taken at their ASCII meaning.
* External collaborators that are not part of the repository (scikit-learn
  estimators, the transformers text-generation pipeline, the NLTK stopword
  list, the filesystem seen by the registry scan) appear as explicit
  parameters.
-/

namespace SheetPilot

/-- Python strings, modelled as lists of characters. -/
abbrev PyStr := List Char

/-- ASCII whitespace as recognised by `str.strip`, `str.split` and `\s`. -/
def isWs (c : Char) : Bool :=
  c = ' ' || c = Char.ofNat 9 || c = Char.ofNat 10 || c = Char.ofNat 13 ||
  c = Char.ofNat 11 || c = Char.ofNat 12

/-- The characters of Python's `string.punctuation`. -/
def punctChars : PyStr :=
  "!\x22#$%&\x27()*+,-./:;<=>?@[\x5c]^_\x60\x7b|\x7d~".toList

/-- Membership in `string.punctuation`. -/
def isPunct (c : Char) : Bool := punctChars.contains c

/-- ASCII lowercasing of one character (`str.lower`). -/
def lowerChar (c : Char) : Char :=
  if 65 ≤ c.toNat ∧ c.toNat ≤ 90 then Char.ofNat (c.toNat + 32) else c

/-- `str.lstrip()` for ASCII whitespace. -/
def lstrip (l : PyStr) : PyStr := l.dropWhile isWs

/-- `str.rstrip()` for ASCII whitespace. -/
def rstrip (l : PyStr) : PyStr := (l.reverse.dropWhile isWs).reverse

/-- `str.strip()` for ASCII whitespace. -/
def pyStrip (l : PyStr) : PyStr := lstrip (rstrip l)

/-- The scanner behind `re.sub(r'\s+', ' ', s)`: `inRun` records whether
the previous character was inside a whitespace run (already emitted as one
space). -/
def collapseAux : Bool → PyStr → PyStr
  | _, [] => []
  | inRun, c :: cs =>
    if isWs c then
      if inRun then collapseAux true cs else ' ' :: collapseAux true cs
    else c :: collapseAux false cs

/-- `re.sub(r'\s+', ' ', s)`: replace every maximal whitespace run by one space. -/
def collapseWs (l : PyStr) : PyStr := collapseAux false l

/-- `str.split()` with no separator: split at every whitespace character
and drop the empty pieces, leaving the maximal non-whitespace runs. -/
def pySplit (l : PyStr) : List PyStr :=
  (l.splitOnP isWs).filter (fun t => !t.isEmpty)

/-- `' '.join(tokens)`. -/
def joinSp (ts : List PyStr) : PyStr := List.intercalate [' '] ts

/-- `s.replace(sub, repl)` (Python `str.replace`): left-to-right,
non-overlapping replacement of every occurrence; an empty pattern inserts
`repl` between characters and at both ends, as in Python. -/
def pyReplace : PyStr → PyStr → PyStr → PyStr
  | [], sub, repl => if sub = [] then repl else []
  | c :: cs, sub, repl =>
    if h : sub ≠ [] ∧ sub.isPrefixOf (c :: cs) then
      repl ++ pyReplace ((c :: cs).drop sub.length) sub repl
    else if sub = [] then repl ++ c :: pyReplace cs sub repl
    else c :: pyReplace cs sub repl
termination_by l => l.length
decreasing_by
  · have hlen : 1 ≤ sub.length := by
      cases hs : sub with
      | nil => exact absurd hs h.1
      | cons a as => simp
    simp only [List.length_drop, List.length_cons]
    omega
  · simp
  · simp

/-- First occurrence split: `some (pre, post)` when `sub` occurs in `l`,
with `l = pre ++ sub ++ post` at the leftmost occurrence. -/
def breakSub : PyStr → PyStr → Option (PyStr × PyStr)
  | [], sub => if sub = [] then some ([], []) else none
  | c :: cs, sub =>
    if sub.isPrefixOf (c :: cs) then some ([], (c :: cs).drop sub.length)
    else
      match breakSub cs sub with
      | some (pre, post) => some (c :: pre, post)
      | none => none

/-- `sub` occurs as a contiguous substring (`sub in s` for Python text). -/
def containsSub (s sub : PyStr) : Bool := decide (sub <:+: s)

/-! ## Data model: tables -/

/-- One pandas column: numeric (`float`-like, `none` = NaN), object/string
(`none` = NaN), or boolean dtype. -/
inductive ColData where
  | nums  (vs : List (Option ℚ))
  | strs  (vs : List (Option PyStr))
  | bools (vs : List Bool)
deriving DecidableEq

/-- A DataFrame: named columns in order. -/
abbrev Table := List (String × ColData)

/-- Number of cells in a column. -/
def ColData.clen : ColData → ℕ
  | .nums vs => vs.length
  | .strs vs => vs.length
  | .bools vs => vs.length

/-- `pd.api.types.is_numeric_dtype` (true for numeric and boolean dtypes). -/
def ColData.isNumericDtype : ColData → Bool
  | .nums _ => true
  | .strs _ => false
  | .bools _ => true

/-- `is_string_dtype or is_object_dtype` as used by the text normalizer. -/
def ColData.isTextDtype : ColData → Bool
  | .nums _ => false
  | .strs _ => true
  | .bools _ => false

/-- Column names of a table, in order. -/
def colNames (t : Table) : List String := t.map Prod.fst

/-- `col in df.columns`. -/
def hasCol (t : Table) (c : String) : Bool := (colNames t).contains c

/-- `df[col]` (first column of that name). -/
def getCol (t : Table) (c : String) : Option ColData :=
  (t.find? (fun p => p.1 = c)).map Prod.snd

/-- `df[col] = data`: replace the first column named `c`, or append a new
column at the end when absent (pandas assignment semantics). -/
def setCol (t : Table) (c : String) (d : ColData) : Table :=
  match t with
  | [] => [(c, d)]
  | (n, d₀) :: rest => if n = c then (n, d) :: rest else (n, d₀) :: setCol rest c d

/-- Row count of a table (`len(df)`), taken from its first column. -/
def nRows (t : Table) : ℕ :=
  match t with
  | [] => 0
  | (_, d) :: _ => d.clen

/-- A well-formed table: every column has the table's row count. -/
def WellFormed (t : Table) : Prop := ∀ p ∈ t, (Prod.snd p).clen = nRows t

/-! ## Error model

The transforms raise `ValueError` with distinguishing messages; the
orchestrator catches any exception.  Each distinct failure the source can
raise is one constructor (the spec's error taxonomy), plus the `TypeError`
Python raises when a call passes a keyword argument the callee does not
accept. -/

inductive TErr where
  /-- `ValueError(f"Columns not found: {missing_cols}")`, carrying the set
  of requested columns absent from the table. -/
  | columnsNotFound (cols : List String)
  /-- `ValueError(f"Column '{col}' is not text type")`. -/
  | notTextType (col : String)
  /-- `ValueError(f"Column '{col}' is not numeric")`. -/
  | notNumeric (col : String)
  /-- `ValueError(f"Unknown imputation method: ...")` /
  `ValueError(f"Unknown outlier detection method: ...")`. -/
  | unknownMethod (m : String)
  /-- `ValueError(f"Unknown action: {action}")`. -/
  | unknownAction (a : String)
  /-- `ValueError("The 'columns' parameter must be provided ...")` (plugin). -/
  | columnsParamMissing
  /-- `TypeError: <fn>() got an unexpected keyword argument '<kw>'`. -/
  | typeErrorUnexpectedKwarg (fn kw : String)
  /-- Any other exception a (caller-supplied) transform may raise. -/
  | other (msg : String)
deriving DecidableEq

/-- `set(columns) - set(df.columns)`: the requested columns absent from the
table (as a duplicate-free list). -/
def missingCols (columns : List String) (t : Table) : List String :=
  (columns.filter (fun c => !hasCol t c)).dedup

/-! ## Missing-value imputer (`modules/missing_imputer/imputer.py`) -/

/-- `Series.mean()` over the non-missing values (`skipna`); `none` = NaN
when there is nothing to average. -/
def seriesMean (vs : List (Option ℚ)) : Option ℚ :=
  let xs := vs.filterMap id
  if xs.length = 0 then none else some (xs.sum / xs.length)

/-- `Series.median()`: middle of the sorted non-missing values, or the
mean of the two middles for an even count. -/
def seriesMedian (vs : List (Option ℚ)) : Option ℚ :=
  let xs := (vs.filterMap id).insertionSort (· ≤ ·)
  let n := xs.length
  if n = 0 then none
  else if n % 2 = 1 then some (xs.getD (n / 2) 0)
  else some ((xs.getD (n / 2 - 1) 0 + xs.getD (n / 2) 0) / 2)

/-- `Series.fillna(v)` on an option-cell column (`v = none` fills nothing). -/
def fillnaOpt {α : Type} (v : Option α) (vs : List (Option α)) : List (Option α) :=
  match v with
  | none => vs
  | some x => vs.map (fun c => some (c.getD x))

/-- `Series.mode()[0]`: among the non-missing values, those of maximal
multiplicity, returned sorted ascending (as pandas does), then the first.
`none` when the column has no non-missing value. -/
def modeVal {α : Type} [LinearOrder α] (vs : List (Option α)) : Option α :=
  let xs := vs.filterMap id
  let cands := xs.dedup
  let maxc := (cands.map (fun v => xs.count v)).foldr max 0
  ((cands.filter (fun v => xs.count v = maxc)).insertionSort (· ≤ ·)).head?

/-- Mean imputation on one column: only numeric dtypes are touched, and a
boolean column has no missing cell to fill. -/
def colImputeMean : ColData → ColData
  | .nums vs => .nums (fillnaOpt (seriesMean vs) vs)
  | .strs vs => .strs vs
  | .bools bs => .bools bs

/-- Median imputation on one column (numeric dtypes only). -/
def colImputeMedian : ColData → ColData
  | .nums vs => .nums (fillnaOpt (seriesMedian vs) vs)
  | .strs vs => .strs vs
  | .bools bs => .bools bs

/-- Mode imputation on one column: fill missing cells with
`Series.mode()[0]` when the mode list is non-empty.  A boolean column has
no missing cell, so it is unchanged. -/
def colImputeMode : ColData → ColData
  | .nums vs => .nums (fillnaOpt (modeVal vs) vs)
  | .strs vs => .strs (fillnaOpt (modeVal vs) vs)
  | .bools bs => .bools bs

/-- A scalar usable as `fill_value`. -/
inductive PyConst where
  | num (q : ℚ)
  | str (s : PyStr)
deriving DecidableEq

/-- Constant imputation on one column.  The model keeps columns
homogeneous, so only a type-matching `fill_value` fills; a boolean column
has no missing cell. -/
def colImputeConst (fv : PyConst) : ColData → ColData
  | .nums vs => .nums (match fv with | .num q => fillnaOpt (some q) vs | _ => vs)
  | .strs vs => .strs (match fv with | .str s => fillnaOpt (some s) vs | _ => vs)
  | .bools bs => .bools bs

/-- Apply a per-column imputation to each listed column of the table, in
order, when the guard on the column's dtype holds. -/
def imputeCols (t : Table) (cols : List String) (guard : ColData → Bool)
    (f : ColData → ColData) : Table :=
  cols.foldl
    (fun acc c =>
      match getCol acc c with
      | some d => if guard d then setCol acc c (f d) else acc
      | none => acc)
    t

/-- `impute_missing(df, columns, method, **kwargs)`.

`knnFit` stands for scikit-learn's `KNNImputer(n_neighbors).fit_transform`
applied to the listed numeric columns — an external dependency, passed as
a parameter.  `kwN` and `kwFill` are the `n_neighbors` / `fill_value`
entries of `**kwargs`; `current_user`, when passed by the orchestrator, is
also swallowed by `**kwargs` and read nowhere.  The high-missing-fraction
warning of the source has no effect on the returned table and is not
modelled. -/
def impute_missing (knnFit : ℕ → List String → Table → Table)
    (df : Table) (columns : Option (List String)) (method : String)
    (kwN : Option ℕ) (kwFill : Option PyConst) : Except TErr Table :=
  let cols := columns.getD (colNames df)
  let missing := missingCols cols df
  if missing ≠ [] then .error (.columnsNotFound missing)
  else if method = "mean" then
    .ok (imputeCols df cols ColData.isNumericDtype colImputeMean)
  else if method = "median" then
    .ok (imputeCols df cols ColData.isNumericDtype colImputeMedian)
  else if method = "mode" then
    .ok (imputeCols df cols (fun _ => true) colImputeMode)
  else if method = "knn" then
    let numericCols := cols.filter (fun c => ((getCol df c).map ColData.isNumericDtype).getD false)
    .ok (if numericCols ≠ [] then knnFit (kwN.getD 5) numericCols df else df)
  else if method = "constant" then
    .ok (imputeCols df cols (fun _ => true) (colImputeConst (kwFill.getD (.num 0))))
  else .error (.unknownMethod method)

/-- Modelled from the spec: the spec's tie-break for mode imputation — the
most frequent non-missing value, ties broken by first occurrence in the
column's original order.  Used only to compare the specified behaviour
with the implemented one. -/
def specModeFirstOccurrence {α : Type} [DecidableEq α] (vs : List (Option α)) : Option α :=
  let xs := vs.filterMap id
  let maxc := (xs.map (fun v => xs.count v)).foldr max 0
  xs.find? (fun v => xs.count v = maxc)

/-! ## Text normalizer (`modules/text_normalizer/normalizer.py`)

The per-cell stages, named after the source lines, then the per-cell and
per-table pipelines. -/

/-- `astype(str)` on one cell: a missing value prints as `"nan"`. -/
def pyStrCell (cell : Option PyStr) : PyStr :=
  match cell with
  | none => "nan".toList
  | some s => s

/-- `result_df.loc[result_df[col] == 'nan', col] = ''`: blank the cells
that (now) read exactly `"nan"` — including genuine `"nan"` strings. -/
def nanBlank (s : PyStr) : PyStr := if s = "nan".toList then [] else s

/-- Optional `str.lower`. -/
def stageLower (lowercase : Bool) (s : PyStr) : PyStr :=
  if lowercase then s.map lowerChar else s

/-- Optional `translate(maketrans('', '', string.punctuation))`. -/
def stagePunct (removePunct : Bool) (s : PyStr) : PyStr :=
  if removePunct then s.filter (fun c => !isPunct c) else s

/-- The `slang_dict` loop: each mapping entry applied in order with
`str.replace` (`if slang_dict:` makes an empty mapping a no-op, which the
empty fold also is). -/
def stageSlang (slang : List (PyStr × PyStr)) (s : PyStr) : PyStr :=
  slang.foldl (fun acc p => pyReplace acc p.1 p.2) s

/-- Optional token-level stopword removal:
`' '.join(w for w in s.split() if w not in stopwords_set)`. -/
def stageStop (removeStop : Bool) (stop : List PyStr) (s : PyStr) : PyStr :=
  if removeStop then joinSp ((pySplit s).filter (fun w => !stop.contains w)) else s

/-- The whole per-cell pipeline on an already-stringified cell, in the
source's order: nan-blank, strip, lowercase?, punctuation?, slang,
stopwords?, whitespace collapse, strip. -/
def cellNormStr (lc rp rs : Bool) (slang : List (PyStr × PyStr))
    (stop : List PyStr) (s : PyStr) : PyStr :=
  pyStrip (collapseWs (stageStop rs stop
    (stageSlang slang (stagePunct rp (stageLower lc (pyStrip (nanBlank s)))))))

/-- The per-cell pipeline on a raw cell (`astype(str)` first). -/
def cellNorm (lc rp rs : Bool) (slang : List (PyStr × PyStr))
    (stop : List PyStr) (cell : Option PyStr) : PyStr :=
  cellNormStr lc rp rs slang stop (pyStrCell cell)

/-- Process one target column in place (it has been validated to be of
text dtype, so the non-`strs` cases cannot occur and leave the table). -/
def processTextCol (lc rp rs : Bool) (slang : List (PyStr × PyStr))
    (stop : List PyStr) (t : Table) (c : String) : Table :=
  match getCol t c with
  | some (.strs vs) =>
      setCol t c (.strs (vs.map (fun cell => some (cellNorm lc rp rs slang stop cell))))
  | _ => t

/-- `normalize_text(df, columns, lowercase, remove_punct, remove_stopwords,
slang_dict)`.

`stopSet` is NLTK's English stopword list, downloaded at run time by the
source — external data, passed as a parameter; `nltkOk` is whether the
`import nltk` succeeded (on failure the source warns and disables stopword
removal).  Note the signature accepts no `current_user` and has no
`**kwargs`. -/
def normalize_text (stopSet : List PyStr) (nltkOk : Bool) (df : Table)
    (columns : List String) (lowercase remove_punct remove_stopwords : Bool)
    (slang_dict : List (PyStr × PyStr)) : Except TErr Table :=
  let missing := missingCols columns df
  if missing ≠ [] then .error (.columnsNotFound missing)
  else
    match columns.find? (fun c => !(((getCol df c).map ColData.isTextDtype).getD false)) with
    | some c => .error (.notTextType c)
    | none =>
      let rs := remove_stopwords && nltkOk
      let stop := if rs then stopSet else []
      .ok (columns.foldl (processTextCol lowercase remove_punct rs slang_dict stop) df)

/-! ## Outlier detector (`modules/outlier_detector/detector.py`) -/

/-- The numeric view of a column's cells (booleans count as 0/1, as pandas
arithmetic treats them); `none` for a text column, which the detector has
already rejected. -/
def ColData.ratCells : ColData → Option (List (Option ℚ))
  | .nums vs => some vs
  | .bools bs => some (bs.map (fun b => some (if b then 1 else 0)))
  | .strs _ => none

/-- Sample variance (`ddof=1`) over the non-missing values; `none` when
fewer than two observations (pandas yields NaN there). -/
def seriesVar (vs : List (Option ℚ)) : Option ℚ :=
  let xs := vs.filterMap id
  let n := xs.length
  if n < 2 then none
  else
    let m := xs.sum / n
    some ((xs.map (fun x => (x - m) ^ 2)).sum / (n - 1 : ℕ))

/-- `Series.std() == 0`.  `std = sqrt(var)` vanishes exactly when the
sample variance does; with fewer than two observations `std` is NaN and
the comparison is false. -/
def seriesStdZero (vs : List (Option ℚ)) : Bool :=
  match seriesVar vs with
  | none => false
  | some v => v = 0

/-- `Series.quantile(q)` with pandas' linear interpolation over the sorted
non-missing values; `none` (NaN) on an empty series. -/
def seriesQuantile (vs : List (Option ℚ)) (q : ℚ) : Option ℚ :=
  let xs := (vs.filterMap id).insertionSort (· ≤ ·)
  let n := xs.length
  if n = 0 then none
  else
    let h : ℚ := (n - 1 : ℕ) * q
    let i : ℕ := ⌊h⌋.toNat
    let frac : ℚ := h - (i : ℚ)
    let a := xs.getD i 0
    let b := xs.getD (i + 1) a
    some (a + frac * (b - a))

/-- `threshold or d`: Python `or` falls back to the default not only for
`None` but also for a zero threshold (`0.0` is falsy). -/
def thresholdOr (threshold : Option ℚ) (d : ℚ) : ℚ :=
  match threshold with
  | none => d
  | some t => if t = 0 then d else t

/-- The IQR flag of one cell against the column's quartile bounds: NaN
cells compare false; NaN bounds (empty column) flag nothing. -/
def iqrFlagCell (q1 q3 : Option ℚ) (t : ℚ) (cell : Option ℚ) : Bool :=
  match q1, q3, cell with
  | some a, some b, some x => x < a - t * (b - a) || x > b + t * (b - a)
  | _, _, _ => false

/-- Per-row IQR mask of one column. -/
def iqrColMask (t : ℚ) (vs : List (Option ℚ)) : List Bool :=
  let q1 := seriesQuantile vs (1 / 4)
  let q3 := seriesQuantile vs (3 / 4)
  vs.map (iqrFlagCell q1 q3 t)

/-- The z-score flag of one cell: `|x - mean| / std > t`.  With fewer than
two observations `std` is NaN and every comparison is false; against a
zero variance the score is `inf` (flagging) unless `x = mean` (NaN, not
flagging); otherwise the comparison is squared to stay rational
(`|x-m|/√v > t  ↔  (x-m)² > t²·v` for `t ≥ 0`, and a negative `t` is
below every score). -/
def zFlagCell (m : ℚ) (var : Option ℚ) (t : ℚ) (cell : Option ℚ) : Bool :=
  match var, cell with
  | some v, some x =>
      if v = 0 then x ≠ m
      else if t < 0 then true
      else (x - m) ^ 2 > t ^ 2 * v
  | _, _ => false

/-- Per-row z-score mask of one column. -/
def zColMask (t : ℚ) (vs : List (Option ℚ)) : List Bool :=
  let xs := vs.filterMap id
  let m := if xs.length = 0 then 0 else xs.sum / xs.length
  vs.map (zFlagCell m (seriesVar vs) t)

/-- The per-column mask the dispatched method computes (only the
per-column methods appear here; the multivariate ones are external). -/
def methodColMask (method : String) (t : ℚ) (vs : List (Option ℚ)) : List Bool :=
  if method = "iqr" then iqrColMask t vs else zColMask t vs

/-- `outlier_mask | col_outliers` (element-wise `or`). -/
def maskOr (a b : List Bool) : List Bool := a.zipWith or b

/-- Drop the cells at flagged positions (`df[~outlier_mask]` on one
column): kept cells stay in their original relative order. -/
def dropFlagged {α : Type} (mask : List Bool) (vs : List α) : List α :=
  ((vs.zip mask).filter (fun p => !p.2)).map Prod.fst

/-- `df[~outlier_mask]` on a whole table. -/
def removeRows (mask : List Bool) (t : Table) : Table :=
  t.map (fun p =>
    (p.1, match p.2 with
          | .nums vs => ColData.nums (dropFlagged mask vs)
          | .strs vs => ColData.strs (dropFlagged mask vs)
          | .bools vs => ColData.bools (dropFlagged mask vs)))

/-- The target columns that survive the zero-variance skip
(`valid_columns` in the source). -/
def validCols (df : Table) (columns : List String) : List String :=
  columns.filter
    (fun c => !seriesStdZero (((getCol df c).bind ColData.ratCells).getD []))

/-- The effective threshold after the `threshold or default` fallbacks
(1.5 for IQR, 3 for z-score). -/
def resolvedThreshold (method : String) (threshold : Option ℚ) : ℚ :=
  thresholdOr threshold (if method = "iqr" then 3 / 2 else 3)

/-- The source's mask accumulation: start all-false, `or` in each valid
column's per-column mask. -/
def detectMask (method : String) (t : ℚ) (df : Table)
    (validColumns : List String) : List Bool :=
  validColumns.foldl
    (fun m c => maskOr m
      (methodColMask method t (((getCol df c).bind ColData.ratCells).getD [])))
    (List.replicate (nRows df) false)

/-- `detect_outliers(df, columns, method, threshold, action, **kwargs)`.

`isoFit` and `lofFit` stand for scikit-learn's `IsolationForest` /
`LocalOutlierFactor` `fit_predict` masks over the valid columns — external
dependencies, passed as parameters.  `current_user`, when passed by the
orchestrator, is swallowed by `**kwargs` and read nowhere. -/
def detect_outliers (isoFit lofFit : List String → Table → List Bool)
    (df : Table) (columns : List String) (method : String)
    (threshold : Option ℚ) (action : String) : Except TErr Table :=
  let missing := missingCols columns df
  if missing ≠ [] then .error (.columnsNotFound missing)
  else
    match columns.find? (fun c => !(((getCol df c).map ColData.isNumericDtype).getD false)) with
    | some c => .error (.notNumeric c)
    | none =>
      let validColumns := validCols df columns
      if validColumns = [] then .ok df
      else
        let maskE : Except TErr (List Bool) :=
          if method = "iqr" || method = "zscore" then
            .ok (detectMask method (resolvedThreshold method threshold) df validColumns)
          else if method = "isolation" then .ok (isoFit validColumns df)
          else if method = "lof" then .ok (lofFit validColumns df)
          else .error (.unknownMethod method)
        match maskE with
        | .error e => .error e
        | .ok mask =>
          if action = "remove" then .ok (removeRows mask df)
          else if action = "flag" then .ok (setCol df ("is_outlier") (.bools mask))
          else .error (.unknownAction action)

/-! ## LLM-backed normalizer plugin
(`plugins/intelligent_text_normalizer/__init__.py`) -/

/-- `s.split(sep)` for a non-empty separator (an empty separator is
treated as never occurring; Python would raise there, and the only caller
uses a fixed non-empty cue). -/
def pySplitSub (sep : PyStr) : PyStr → List PyStr
  | [] => [[]]
  | c :: cs =>
    if h : sep ≠ [] ∧ sep.isPrefixOf (c :: cs) then
      [] :: pySplitSub sep ((c :: cs).drop sep.length)
    else
      match pySplitSub sep cs with
      | t :: rest => (c :: t) :: rest
      | [] => [[c]]
termination_by l => l.length
decreasing_by
  · have hlen : 1 ≤ sep.length := by
      cases hs : sep with
      | nil => exact absurd hs h.1
      | cons a as => simp
    simp only [List.length_drop, List.length_cons]
    omega
  · simp

/-- `format_prompt(text_to_normalize, normalization_rules)`. -/
def format_prompt (text rules : PyStr) : PyStr :=
  "Please normalize the following text based on these rules: \x27".toList ++ rules ++
  "\x27.\nOriginal text: \x27\x27\x27".toList ++ text ++
  "\x27\x27\x27\nReturn only the normalized text, with no additional explanation, labels, or markdown formatting.\nNormalized text:".toList

/-- `parse_llm_output(full_output, prompt)`: take what follows the last
occurrence of the cue; else strip a verbatim prompt prefix; else return
the raw output stripped (the low-confidence fallback). -/
def parse_llm_output (full prompt : PyStr) : PyStr :=
  let cue := "Normalized text:".toList
  if containsSub full cue ∧ (pySplitSub cue full).length > 1 then
    pyStrip ((pySplitSub cue full).getLastD [])
  else if prompt.isPrefixOf full then pyStrip (full.drop prompt.length)
  else pyStrip full

/-- One `llm_pipeline(...)` call, as seen by the plugin: the generated
text, an unexpected output shape, or a raised exception. -/
inductive LlmResult where
  | text (s : PyStr)
  | malformed
  | raises

/-- One row of the per-column loop: empty-after-strip cells are skipped;
per-row inference failures and malformed outputs leave the cell unchanged;
a missing cell stringifies to `"nan"`, which is non-empty and therefore
sent to the model. -/
def llmCell (gen : PyStr → LlmResult) (rules : PyStr) (cell : Option PyStr) :
    Option PyStr :=
  let s := pyStrCell cell
  if pyStrip s = [] then cell
  else
    match gen (format_prompt s rules) with
    | .text g => some (parse_llm_output g (format_prompt s rules))
    | .malformed => cell
    | .raises => cell

/-- One target column of the plugin loop.  A column name absent from the
table is skipped with a warning (`continue`), not an error.  The model
keeps columns homogeneous, so only text-dtype columns are rewritten (the
source would stringify a numeric column's cells; no claim exercises
that). -/
def processLlmCol (gen : PyStr → LlmResult) (rules : PyStr) (t : Table)
    (c : String) : Table :=
  match getCol t c with
  | some (.strs vs) => setCol t c (.strs (vs.map (llmCell gen rules)))
  | some _ => t
  | none => t

/-- `process(df, current_user=None, **params)` of the plugin.

`available` is `MODEL_PATH_CONFIGURED and llm_pipeline is not None`
(whether the transformers pipeline initialised); `gen` is the external
text-generation call.  A falsy `columns` parameter raises; falsy
`normalization_rules` or an unavailable model return the table unchanged
(passthrough).  `current_user` is read only for logging and has no effect
on the result, hence does not appear. -/
def plugin_process (available : Bool) (gen : PyStr → LlmResult)
    (df : Table) (columns : Option (List String)) (rules : Option PyStr) :
    Except TErr Table :=
  match columns with
  | none => .error .columnsParamMissing
  | some [] => .error .columnsParamMissing
  | some cs =>
    match rules with
    | none => .ok df
    | some r =>
      if r = [] then .ok df
      else if !available then .ok df
      else .ok (cs.foldl (processLlmCol gen r) df)

/-! ## Module registry (`app/core/module_registry.py`) -/

/-- The class of a Python exception, as far as `except ImportError`
distinguishes it. -/
inductive PyExcClass where
  | importError
  | otherError
deriving DecidableEq

/-- `name.startswith(p)` (kernel-computable model of `str.startswith`). -/
def pyStartsWith (s p : String) : Bool := p.toList.isPrefixOf s.toList

/-- One entry of `path.iterdir()`. -/
structure DirEntry where
  name : String
  isDir : Bool
deriving DecidableEq

/-- What `importlib.import_module` does for one candidate: import
succeeds (with the module's `process` attribute, if any), or raises. -/
inductive LoadOutcome (α : Type) where
  | loaded (process : Option α)
  | raises (c : PyExcClass)

/-- `ModuleRegistry._scan_directory`: walk the directory entries in order,
consider each subdirectory not starting with `_`, import it, register its
`process` entry point; `except ImportError` skips the candidate, while any
other exception propagates out of the scan. -/
def scanDirectory {α : Type} (load : String → LoadOutcome α) :
    List DirEntry → List (String × α) → Except PyExcClass (List (String × α))
  | [], acc => .ok acc
  | e :: es, acc =>
    if e.isDir && !(pyStartsWith e.name ("_")) then
      match load e.name with
      | .loaded (some f) => scanDirectory load es (acc ++ [(e.name, f)])
      | .loaded none => scanDirectory load es acc
      | .raises .importError => scanDirectory load es acc
      | .raises .otherError => .error .otherError
    else scanDirectory load es acc

/-! ## Orchestrator (`app/core/orchestrator.py`) -/

/-- The optional caller identity threaded through for audit logging. -/
structure Identity where
  id : String
  username : String
  role : String
deriving DecidableEq

/-- The keyword-call surface of a Python function: its named parameters
(after the positional dataframe) and whether it has a `**kwargs`
catch-all. -/
structure PySig where
  params : List String
  varKwargs : Bool
deriving DecidableEq

/-- `impute_missing(df, columns=None, method="mean", **kwargs)`. -/
def imputeSig : PySig := ⟨["columns", "method"], true⟩

/-- `normalize_text(df, columns, lowercase=True, remove_punct=True,
remove_stopwords=False, slang_dict=None)` — no `current_user`, no
`**kwargs`. -/
def normalizeSig : PySig :=
  ⟨["columns", "lowercase", "remove_punct", "remove_stopwords", "slang_dict"], false⟩

/-- `detect_outliers(df, columns, method="iqr", threshold=None,
action="remove", **kwargs)`. -/
def detectSig : PySig := ⟨["columns", "method", "threshold", "action"], true⟩

/-- Plugin `process(df, current_user=None, **params)`. -/
def pluginSig : PySig := ⟨["current_user"], true⟩

/-- Whether a keyword argument named `k` is accepted by a callee with
signature `s` (Python call binding). -/
def sigAccepts (s : PySig) (k : String) : Bool :=
  s.varKwargs || s.params.contains k

/-- `ModuleConfig`: one pipeline step.  `sig` is the transform's call
surface, `paramKeys` the keys of `step.params`, and `func` the transform's
semantics with those parameters already fixed (it receives the
`current_user` the orchestrator forwards). -/
structure StepCfg where
  name : String
  sig : PySig
  paramKeys : List String
  func : Option Identity → Table → Except TErr Table
  enabled : Bool

/-- One entry of `report.errors` (`module` and the caught error; the
traceback string is not modelled). -/
structure ErrorEntry where
  module : String
  error : TErr
deriving DecidableEq

/-- The pipeline execution report. -/
structure Report where
  steps_completed : List String
  errors : List ErrorEntry
  stats : List (String × String)
deriving DecidableEq

/-- `step.module_func(result_df, current_user=current_user, **step.params)`:
Python binds every passed keyword or raises `TypeError`; only then does
the transform body run. -/
def invokeStep (user : Option Identity) (st : StepCfg) (t : Table) :
    Except TErr Table :=
  match (("current_user") :: st.paramKeys).find? (fun k => !sigAccepts st.sig k) with
  | some k => .error (.typeErrorUnexpectedKwarg st.name k)
  | none => st.func user t

/-- The orchestrator's step loop: on success the working table advances
and the step is recorded; on failure the error is recorded and the
working table is kept, halting if `stop_on_error`. -/
def runSteps (stopOnError : Bool) (user : Option Identity) :
    List StepCfg → Table → List String → List ErrorEntry →
    List (String × String) → Table × Report
  | [], t, comp, errs, stats => (t, ⟨comp, errs, stats⟩)
  | st :: rest, t, comp, errs, stats =>
    if st.enabled then
      match invokeStep user st t with
      | .ok t2 =>
          runSteps stopOnError user rest t2 (comp ++ [st.name]) errs
            (stats ++ [(st.name, "success")])
      | .error e =>
          if stopOnError then (t, ⟨comp, errs ++ [⟨st.name, e⟩], stats⟩)
          else runSteps stopOnError user rest t comp (errs ++ [⟨st.name, e⟩]) stats
    else runSteps stopOnError user rest t comp errs stats

/-- `Orchestrator(stop_on_error).run_pipeline(df, steps, current_user)`:
start from a copy of the input table (value semantics make the defensive
copy the identity), run the steps, return the table and the report.  The
audit-log emissions are external side effects with no bearing on the
returned value. -/
def run_pipeline (stopOnError : Bool) (df : Table) (steps : List StepCfg)
    (user : Option Identity) : Table × Report :=
  runSteps stopOnError user steps df [] [] []

/-- A step configuration for `impute_missing` as the integration code
builds it: `step.params` has keys `columns` and `method`. -/
def mkImputeStep (knnFit : ℕ → List String → Table → Table)
    (columns : Option (List String)) (method : String)
    (kwN : Option ℕ) (kwFill : Option PyConst) : StepCfg :=
  ⟨"missing_imputer", imputeSig, ["columns", "method"],
    fun _ df => impute_missing knnFit df columns method kwN kwFill, true⟩

/-- A step configuration for `normalize_text`:  `step.params` has keys
`columns`, `lowercase`, `remove_punct`. -/
def mkNormalizeStep (stopSet : List PyStr) (nltkOk : Bool)
    (columns : List String) (lc rp rs : Bool)
    (slang : List (PyStr × PyStr)) : StepCfg :=
  ⟨"text_normalizer", normalizeSig, ["columns", "lowercase", "remove_punct"],
    fun _ df => normalize_text stopSet nltkOk df columns lc rp rs slang, true⟩

/-- A step configuration for `detect_outliers`: `step.params` has keys
`columns`, `method`, `action`. -/
def mkDetectStep (isoFit lofFit : List String → Table → List Bool)
    (columns : List String) (method : String) (threshold : Option ℚ)
    (action : String) : StepCfg :=
  ⟨"outlier_detector", detectSig, ["columns", "method", "action"],
    fun _ df => detect_outliers isoFit lofFit df columns method threshold action, true⟩

/-- A step configuration for the plugin's `process`: `step.params` has
keys `columns`, `normalization_rules`. -/
def mkPluginStep (available : Bool) (gen : PyStr → LlmResult)
    (columns : Option (List String)) (rules : Option PyStr) : StepCfg :=
  ⟨"intelligent_text_normalizer", pluginSig, ["columns", "normalization_rules"],
    fun _ df => plugin_process available gen df columns rules, true⟩

/-- Whether an `Except` result is a success. -/
def isOkE {ε α : Type} : Except ε α → Bool
  | .ok _ => true
  | .error _ => false

/-- Decidable equality of `Except` results, used to evaluate the
embedding at concrete inputs. -/
instance {ε α : Type} [DecidableEq ε] [DecidableEq α] :
    DecidableEq (Except ε α) := fun a b =>
  match a, b with
  | .ok x, .ok y =>
    if h : x = y then .isTrue (h ▸ rfl)
    else .isFalse (fun hc => h (Except.ok.inj hc))
  | .error x, .error y =>
    if h : x = y then .isTrue (h ▸ rfl)
    else .isFalse (fun hc => h (Except.error.inj hc))
  | .ok _, .error _ => .isFalse (fun hc => Except.noConfusion hc)
  | .error _, .ok _ => .isFalse (fun hc => Except.noConfusion hc)

/-- Decidable check used by the idempotence theorem: no cell of the listed
text columns reads exactly `"nan"`. -/
def noNanCells (t : Table) (cols : List String) : Bool :=
  cols.all (fun c =>
    match getCol t c with
    | some (.strs vs) => vs.all (fun cell => cell ≠ some ("nan".toList))
    | _ => true)

/-- Whitespace-normal text: every whitespace character is a plain space
and no two sit adjacent (the shape `re.sub(r'\s+', ' ', ...)` leaves
behind). -/
def WsNorm (l : PyStr) : Prop :=
  (∀ c ∈ l, isWs c = true → c = ' ') ∧
  l.Chain' (fun a b => ¬(isWs a = true ∧ isWs b = true))

end SheetPilot

/-! # Theorems -/

namespace SheetPilot

/-- The working table of a `stop_on_error=False` run is the fold of the
enabled, successfully invoked steps; a failing step leaves it unchanged. -/
theorem runSteps_fst_false (user : Option Identity) :
    ∀ (steps : List StepCfg) (t : Table) (comp : List String)
      (errs : List ErrorEntry) (stats : List (String × String)),
    (runSteps false user steps t comp errs stats).1 =
      steps.foldl
        (fun tb s => if s.enabled then
          match invokeStep user s tb with
          | .ok t2 => t2
          | .error _ => tb
        else tb) t := by
  intro steps
  induction steps with
  | nil => intro t comp errs stats; rfl
  | cons st rest ih =>
    intro t comp errs stats
    simp only [runSteps, List.foldl]
    by_cases he : st.enabled
    · simp only [he, if_true]
      cases h : invokeStep user st t with
      | ok t2 => simp [ih]
      | error e => simp [ih]
    · simp [he, ih]

/-- C4: for every table `T`, `run_pipeline(T, [])` returns a result table
equal to `T` and a report with empty `steps_completed`, empty `errors` and
empty `stats`. -/
theorem C4_empty_pipeline (stopOnError : Bool) (user : Option Identity)
    (df : Table) :
    run_pipeline stopOnError df [] user = (df, ⟨[], [], []⟩) := rfl

/-- C2: with `stop_on_error=False`, a single step whose transform always
raises returns the input table unchanged together with a report whose
errors list is exactly one entry naming that step; and in general the
working table of a run is the fold of the successful steps only — a
failed step never advances it. -/
theorem C2_failed_step_no_corruption (user : Option Identity) (df : Table)
    (st : StepCfg) (errOf : Table → TErr)
    (hen : st.enabled = true)
    (hbad : ∀ t, invokeStep user st t = .error (errOf t)) :
    run_pipeline false df [st] user =
      (df, ⟨[], [⟨st.name, errOf df⟩], []⟩) ∧
    ∀ steps : List StepCfg,
      (run_pipeline false df steps user).1 =
        steps.foldl
          (fun tb s => if s.enabled then
            match invokeStep user s tb with
            | .ok t2 => t2
            | .error _ => tb
          else tb) df := by
  constructor
  · simp [run_pipeline, runSteps, hen, hbad df]
  · intro steps
    exact runSteps_fst_false user steps df [] [] []

/-- Witness for C2 at a concrete always-failing step and table. -/
theorem C2_failed_step_no_corruption_witness :
    run_pipeline false [("a", ColData.nums [some 1])]
      [⟨"bad_step", ⟨[], true⟩, [], fun _ _ => .error (.other "boom"), true⟩] none =
      ([("a", ColData.nums [some 1])],
        ⟨[], [⟨"bad_step", .other "boom"⟩], []⟩) :=
  (C2_failed_step_no_corruption none [("a", ColData.nums [some 1])]
    ⟨"bad_step", ⟨[], true⟩, [], fun _ _ => .error (.other "boom"), true⟩
    (fun _ => .other "boom") rfl (fun _ => rfl)).1

/-- C9 counterexample: a provider whose import raises an exception that is
not an `ImportError` aborts the whole scan — `_scan_directory` catches
`ImportError` only, so a scan can raise because of one bad provider. -/
theorem C9_counterexample :
    scanDirectory (fun _ => (LoadOutcome.raises .otherError : LoadOutcome Unit))
      [⟨"bad_plugin", true⟩] [] = .error .otherError := by
  have h : pyStartsWith ("bad_plugin") ("_") = false := by decide
  simp [scanDirectory, h]

/-- C9 amended: when every failing candidate fails with an `ImportError`,
the scan succeeds, skipping the failing or interface-less candidates and
registering, in order, exactly the loadable subdirectories (not
underscore-prefixed) that expose a `process` entry point. -/
theorem C9_scan_tolerates_import_errors {α : Type}
    (load : String → LoadOutcome α) :
    ∀ (entries : List DirEntry) (acc : List (String × α)),
    (∀ e ∈ entries, ∀ c, load e.name = .raises c → c = .importError) →
    scanDirectory load entries acc =
      .ok (acc ++ entries.filterMap (fun e =>
        if e.isDir && !(pyStartsWith e.name ("_")) then
          match load e.name with
          | .loaded (some f) => some (e.name, f)
          | _ => none
        else none)) := by
  intro entries
  induction entries with
  | nil => intro acc _; simp [scanDirectory]
  | cons e es ih =>
    intro acc h
    have hes : ∀ e2 ∈ es, ∀ c, load e2.name = .raises c → c = .importError :=
      fun e2 m => h e2 (List.mem_cons_of_mem e m)
    rw [List.filterMap_cons]
    cases hb1 : e.isDir with
    | false => simp [scanDirectory, hb1, ih _ hes]
    | true =>
      cases hb2 : pyStartsWith e.name ("_") with
      | true => simp [scanDirectory, hb1, hb2, ih _ hes]
      | false =>
        cases hl : load e.name with
        | loaded p =>
          cases p with
          | some f => simp [scanDirectory, hb1, hb2, hl, ih _ hes]
          | none => simp [scanDirectory, hb1, hb2, hl, ih _ hes]
        | raises c =>
          cases c with
          | importError => simp [scanDirectory, hb1, hb2, hl, ih _ hes]
          | otherError =>
            exact absurd (h e (List.mem_cons_self e es) _ hl) (by simp)

/-- Witness for C9 amended: one candidate raising `ImportError`, one
without the `process` interface, one good provider — the scan succeeds
and registers exactly the good one. -/
theorem C9_scan_tolerates_import_errors_witness :
    scanDirectory
      (fun n =>
        if n = "broken" then (LoadOutcome.raises .importError : LoadOutcome ℕ)
        else if n = "no_interface" then .loaded none
        else .loaded (some 7))
      [⟨"broken", true⟩, ⟨"no_interface", true⟩, ⟨"good", true⟩] [] =
      .ok [("good", 7)] := by
  have h := C9_scan_tolerates_import_errors
    (fun n =>
      if n = "broken" then (LoadOutcome.raises .importError : LoadOutcome ℕ)
      else if n = "no_interface" then .loaded none
      else .loaded (some 7))
    [⟨"broken", true⟩, ⟨"no_interface", true⟩, ⟨"good", true⟩] []
    (by
      intro e he c hc
      fin_cases he <;> simp at hc <;> exact hc.symm)
  simpa using h

/-- C10: when every target column of the outlier detector exists, is
numeric, and has zero variance, `detect_outliers` returns the table
unchanged before ever dispatching on `method` or `action`: an unknown
method or action string does not raise, no rows are removed, and no
boolean outlier column is added. -/
theorem C10_zero_variance_early_return
    (isoFit lofFit : List String → Table → List Bool) (df : Table)
    (columns : List String) (method : String) (threshold : Option ℚ)
    (action : String)
    (hex : missingCols columns df = [])
    (hzv : ∀ c ∈ columns,
      ((getCol df c).map ColData.isNumericDtype).getD false = true ∧
      seriesStdZero (((getCol df c).bind ColData.ratCells).getD []) = true) :
    detect_outliers isoFit lofFit df columns method threshold action = .ok df := by
  have hfind : columns.find?
      (fun c => !(((getCol df c).map ColData.isNumericDtype).getD false)) = none := by
    rw [List.find?_eq_none]
    intro c hc
    simp [(hzv c hc).1]
  have hfilter : columns.filter
      (fun c => !seriesStdZero (((getCol df c).bind ColData.ratCells).getD [])) = [] := by
    rw [List.filter_eq_nil]
    intro c hc
    simp [(hzv c hc).2]
  simp [detect_outliers, validCols, hex, hfind, hfilter]

/-- Witness for C10: a constant column, an unknown method and an unknown
action — the detector still returns the table unchanged. -/
theorem C10_zero_variance_early_return_witness :
    detect_outliers (fun _ _ => []) (fun _ _ => [])
      [("c", ColData.nums [some 1, some 1])] ["c"] ("bogus_method") none
      ("bogus_action") = .ok [("c", ColData.nums [some 1, some 1])] :=
  C10_zero_variance_early_return (fun _ _ => []) (fun _ _ => [])
    [("c", ColData.nums [some 1, some 1])] ["c"] ("bogus_method") none
    ("bogus_action") (by decide)
    (by
      intro c hc
      fin_cases hc
      refine ⟨rfl, ?_⟩
      simp [seriesStdZero, seriesVar, getCol, ColData.ratCells])

/-- C3 counterexample: the LLM normalizer plugin, asked to process a
column absent from the table, succeeds and returns the table unchanged —
it does not fail with a column-not-found error, contradicting the claim
for that transform. -/
theorem C3_counterexample :
    plugin_process false (fun _ => .malformed)
      [("a", ColData.strs [some ("x".toList)])] (some ["zzz"])
      (some ("r".toList)) = .ok [("a", ColData.strs [some ("x".toList)])] := rfl

/-- C3 amended: the imputer, text normalizer and outlier detector each
fail with the column-not-found error naming the missing columns whenever
any requested column is absent; the LLM normalizer plugin instead skips
missing columns with a warning and always succeeds (given a non-empty
`columns` parameter). -/
theorem C3_missing_columns
    (knnFit : ℕ → List String → Table → Table)
    (isoFit lofFit : List String → Table → List Bool)
    (stopSet : List PyStr) (nltkOk : Bool) (df : Table)
    (columns : List String) (method : String) (kwN : Option ℕ)
    (kwFill : Option PyConst) (lc rp rs : Bool)
    (slang : List (PyStr × PyStr)) (threshold : Option ℚ) (action : String)
    (hmiss : missingCols columns df ≠ []) :
    impute_missing knnFit df (some columns) method kwN kwFill =
      .error (.columnsNotFound (missingCols columns df)) ∧
    normalize_text stopSet nltkOk df columns lc rp rs slang =
      .error (.columnsNotFound (missingCols columns df)) ∧
    detect_outliers isoFit lofFit df columns method threshold action =
      .error (.columnsNotFound (missingCols columns df)) ∧
    ∀ (available : Bool) (gen : PyStr → LlmResult) (rules : Option PyStr)
      (cs : List String), cs ≠ [] →
      isOkE (plugin_process available gen df (some cs) rules) = true := by
  refine ⟨by simp [impute_missing, hmiss], by simp [normalize_text, hmiss],
    by simp [detect_outliers, hmiss], ?_⟩
  intro available gen rules cs hcs
  match cs, hcs with
  | c :: cs2, _ =>
    cases rules with
    | none => rfl
    | some r =>
      by_cases hr : r = []
      · simp [plugin_process, hr, isOkE]
      · by_cases hav : available
        · simp [plugin_process, hr, hav, isOkE]
        · simp [plugin_process, hr, hav, isOkE]

/-- Witness for C3 amended, at a one-column table asked for a missing
column `zzz`. -/
theorem C3_missing_columns_witness :
    (impute_missing (fun _ _ t => t) [("a", ColData.strs [some ("x".toList)])]
      (some ["zzz"]) ("mean") none none =
      .error (.columnsNotFound ["zzz"])) ∧
    (normalize_text [] true [("a", ColData.strs [some ("x".toList)])]
      ["zzz"] true true false [] = .error (.columnsNotFound ["zzz"])) ∧
    (detect_outliers (fun _ _ => []) (fun _ _ => [])
      [("a", ColData.strs [some ("x".toList)])] ["zzz"] ("iqr") none
      ("remove") = .error (.columnsNotFound ["zzz"])) ∧
    isOkE (plugin_process false (fun _ => .malformed)
      [("a", ColData.strs [some ("x".toList)])] (some ["zzz"])
      (some ("r".toList))) = true := by
  have h := C3_missing_columns (fun _ _ t => t) (fun _ _ => []) (fun _ _ => [])
    [] true [("a", ColData.strs [some ("x".toList)])] ["zzz"] ("mean") none
    none true true false [] none ("remove") (by decide)
  have hm : missingCols ["zzz"] [("a", ColData.strs [some ("x".toList)])] =
      ["zzz"] := by decide
  refine ⟨?_, ?_, ?_, ?_⟩
  · have := h.1; rwa [hm] at this
  · have := h.2.1; rwa [hm] at this
  · have h3 := C3_missing_columns (fun _ _ t => t) (fun _ _ => [])
      (fun _ _ => []) [] true [("a", ColData.strs [some ("x".toList)])]
      ["zzz"] ("iqr") none none true true false [] none ("remove") (by decide)
    have := h3.2.2.1; rwa [hm] at this
  · exact h.2.2.2 false (fun _ => .malformed) (some ("r".toList)) ["zzz"]
      (by decide)

/-- Every member of a list of naturals is bounded by `foldr max 0`. -/
theorem mem_le_foldr_max (l : List ℕ) (a : ℕ) (ha : a ∈ l) :
    a ≤ l.foldr max 0 := by
  induction l with
  | nil => cases ha
  | cons b bs ih =>
    rcases List.mem_cons.mp ha with h | h
    · subst h; exact le_max_left _ _
    · exact le_trans (ih h) (le_max_right _ _)

/-- The head of an ascending insertion sort is a member of the original
list and a lower bound for it. -/
theorem insertionSortHead_min {α : Type} [LinearOrder α] (l : List α) (v : α)
    (hv : (l.insertionSort (· ≤ ·)).head? = some v) :
    v ∈ l ∧ ∀ w ∈ l, v ≤ w := by
  have hs : (l.insertionSort (· ≤ ·)).Sorted (· ≤ ·) :=
    List.sorted_insertionSort _ l
  have hperm := List.perm_insertionSort (· ≤ ·) l
  cases hsort : l.insertionSort (· ≤ ·) with
  | nil => rw [hsort] at hv; cases hv
  | cons a as =>
    rw [hsort] at hv hs hperm
    have hva : v = a := by simpa using hv.symm
    subst hva
    constructor
    · exact hperm.mem_iff.mp (List.mem_cons_self v as)
    · intro w hw
      rcases List.mem_cons.mp (hperm.mem_iff.mpr hw) with h | h
      · exact le_of_eq h.symm
      · exact (List.sorted_cons.mp hs).1 w h

/-- C5 counterexample: mode imputation on the column `[2, 1, NaN]` fills
the missing cell with `1` — pandas `mode()` returns the tied modes sorted
ascending — while the claim's first-occurrence tie-break predicts `2`. -/
theorem C5_counterexample :
    impute_missing (fun _ _ t => t)
      [("x", ColData.nums [some 2, some 1, none])] (some ["x"]) ("mode")
      none none = .ok [("x", ColData.nums [some 2, some 1, some 1])] ∧
    specModeFirstOccurrence [some (2 : ℚ), some 1, none] = some 2 ∧
    modeVal [some (2 : ℚ), some 1, none] = some 1 ∧ ((1 : ℚ) ≠ 2) := by
  refine ⟨by decide, by decide, by decide, by decide⟩

/-- C5 amended: mode imputation fills each missing cell of a target
column with the most frequent non-missing value; when several values tie
for most frequent, the smallest one (ascending value order, as pandas
`mode()` sorts) is chosen — not the first-occurring one. -/
theorem C5_mode_tiebreak (knnFit : ℕ → List String → Table → Table)
    (df : Table) (cols : List String) (kwN : Option ℕ)
    (kwFill : Option PyConst)
    (hmiss : missingCols cols df = []) :
    impute_missing knnFit df (some cols) ("mode") kwN kwFill =
      .ok (imputeCols df cols (fun _ => true) colImputeMode) ∧
    ∀ (vs : List (Option ℚ)) (v : ℚ), modeVal vs = some v →
      colImputeMode (.nums vs) =
        .nums (vs.map (fun cell => some (cell.getD v))) ∧
      v ∈ vs.filterMap id ∧
      (∀ w ∈ vs.filterMap id,
        (vs.filterMap id).count w ≤ (vs.filterMap id).count v) ∧
      (∀ w ∈ vs.filterMap id,
        (vs.filterMap id).count w = (vs.filterMap id).count v → v ≤ w) := by
  constructor
  · simp [impute_missing, hmiss]
  · intro vs v hv
    have hv0 : modeVal vs = some v := hv
    simp only [modeVal] at hv
    obtain ⟨hmem, hmin⟩ := insertionSortHead_min _ _ hv
    have hv_f := List.mem_filter.mp hmem
    have hv_count : (vs.filterMap id).count v =
        ((vs.filterMap id).dedup.map
          (fun w => (vs.filterMap id).count w)).foldr max 0 := by
      simpa using hv_f.2
    refine ⟨?_, List.mem_dedup.mp hv_f.1, ?_, ?_⟩
    · simp only [colImputeMode, hv0, fillnaOpt]
    · intro w hw
      rw [hv_count]
      exact mem_le_foldr_max _ _
        (List.mem_map_of_mem _ (List.mem_dedup.mpr hw))
    · intro w hw he
      refine hmin w (List.mem_filter.mpr ⟨List.mem_dedup.mpr hw, ?_⟩)
      simp only [decide_eq_true_eq]
      rw [he, hv_count]

/-- Witness for C5 amended: the concrete tied column `[2, 1, NaN]`. -/
theorem C5_mode_tiebreak_witness :
    impute_missing (fun _ _ t => t)
      [("x", ColData.nums [some 2, some 1, none])] (some ["x"]) ("mode")
      none none =
      .ok (imputeCols [("x", ColData.nums [some 2, some 1, none])] ["x"]
        (fun _ => true) colImputeMode) ∧
    colImputeMode (ColData.nums [some 2, some 1, none]) =
      ColData.nums [some 2, some 1, some 1] ∧
    (1 : ℚ) ∈ ([some (2 : ℚ), some 1, none].filterMap id) := by
  have h := C5_mode_tiebreak (fun _ _ t => t)
    [("x", ColData.nums [some 2, some 1, none])] ["x"] none none (by decide)
  have h2 := h.2 [some 2, some 1, none] 1 (by decide)
  refine ⟨h.1, ?_, h2.2.1⟩
  rw [h2.1]
  decide

/-- C1: the imputer, outlier detector and LLM normalizer accept a
`current_user` keyword (their `**kwargs`/explicit parameter) and their
output is independent of it, but `normalize_text` accepts no
`current_user` and has no `**kwargs`, so the orchestrator's call
`step.module_func(result_df, current_user=..., **step.params)` raises
`TypeError` and every text-normalizer step fails — evaluated here at a
concrete pipeline (the shape of
`tests/test_integration.py::test_full_pipeline`, which expects zero
errors). -/
theorem C1_current_user_contract :
    sigAccepts imputeSig ("current_user") = true ∧
    sigAccepts detectSig ("current_user") = true ∧
    sigAccepts pluginSig ("current_user") = true ∧
    sigAccepts normalizeSig ("current_user") = false ∧
    (∀ (stopSet : List PyStr) (nltkOk : Bool) (columns : List String)
       (lc rp rs : Bool) (slang : List (PyStr × PyStr))
       (user : Option Identity) (df : Table),
      invokeStep user (mkNormalizeStep stopSet nltkOk columns lc rp rs slang) df =
        .error (.typeErrorUnexpectedKwarg "text_normalizer" "current_user")) ∧
    (∀ (knnFit : ℕ → List String → Table → Table)
       (columns : Option (List String)) (method : String) (kwN : Option ℕ)
       (kwFill : Option PyConst) (u1 u2 : Option Identity) (df : Table),
      invokeStep u1 (mkImputeStep knnFit columns method kwN kwFill) df =
        invokeStep u2 (mkImputeStep knnFit columns method kwN kwFill) df) ∧
    (∀ (isoFit lofFit : List String → Table → List Bool)
       (columns : List String) (method : String) (threshold : Option ℚ)
       (action : String) (u1 u2 : Option Identity) (df : Table),
      invokeStep u1 (mkDetectStep isoFit lofFit columns method threshold action) df =
        invokeStep u2 (mkDetectStep isoFit lofFit columns method threshold action) df) ∧
    (∀ (available : Bool) (gen : PyStr → LlmResult)
       (columns : Option (List String)) (rules : Option PyStr)
       (u1 u2 : Option Identity) (df : Table),
      invokeStep u1 (mkPluginStep available gen columns rules) df =
        invokeStep u2 (mkPluginStep available gen columns rules) df) ∧
    run_pipeline false [("text_messy", ColData.strs [some ("Hi!".toList)])]
      [mkNormalizeStep [] true ["text_messy"] true true false []]
      (some ⟨"1", "alice", "admin"⟩) =
      ([("text_messy", ColData.strs [some ("Hi!".toList)])],
        ⟨[], [⟨"text_normalizer",
          .typeErrorUnexpectedKwarg "text_normalizer" "current_user"⟩], []⟩) := by
  refine ⟨by decide, by decide, by decide, by decide,
    fun _ _ _ _ _ _ _ _ _ => rfl, fun _ _ _ _ _ _ _ _ => rfl,
    fun _ _ _ _ _ _ _ _ _ => rfl, fun _ _ _ _ _ _ _ => rfl, rfl⟩

/-- C7: on a validated table the text normalizer rewrites exactly the
target columns, transforming each cell by the fixed stage order trim →
optional lowercase → optional punctuation stripping → sequential slang
substitution → optional stopword removal → whitespace collapse → trim
(after `astype(str)` and the `'nan'` blanking); in particular, with
`lowercase=true` and `remove_punct=true` the cell `"HELLO World!!!"`
becomes `"hello world"`. -/
theorem C7_stage_order (stopSet : List PyStr) (nltkOk : Bool) (df : Table)
    (columns : List String) (lc rp rs : Bool) (slang : List (PyStr × PyStr))
    (hmiss : missingCols columns df = [])
    (htxt : ∀ c ∈ columns,
      ((getCol df c).map ColData.isTextDtype).getD false = true) :
    normalize_text stopSet nltkOk df columns lc rp rs slang =
      .ok (columns.foldl
        (processTextCol lc rp (rs && nltkOk) slang
          (if rs && nltkOk then stopSet else [])) df) ∧
    (∀ (stop : List PyStr) (cell : Option PyStr),
      cellNorm lc rp (rs && nltkOk) slang stop cell =
        pyStrip (collapseWs (stageStop (rs && nltkOk) stop
          (stageSlang slang (stagePunct rp (stageLower lc
            (pyStrip (nanBlank (pyStrCell cell))))))))) ∧
    normalize_text [] true
      [("text", ColData.strs [some ("HELLO World!!!".toList)])] ["text"]
      true true false [] =
      .ok [("text", ColData.strs [some ("hello world".toList)])] := by
  refine ⟨?_, fun _ _ => rfl, by decide⟩
  have hfind : columns.find?
      (fun c => !(((getCol df c).map ColData.isTextDtype).getD false)) = none := by
    rw [List.find?_eq_none]
    intro c hc
    simp [htxt c hc]
  simp [normalize_text, hmiss, hfind]

/-- Witness for C7 at the spec's concrete example table. -/
theorem C7_stage_order_witness :
    normalize_text [] true
      [("text", ColData.strs [some ("HELLO World!!!".toList)])] ["text"]
      true true false [] =
      .ok (["text"].foldl
        (processTextCol true true (false && true) []
          (if false && true then [] else []))
        [("text", ColData.strs [some ("HELLO World!!!".toList)])]) ∧
    cellNorm true true (false && true) [] []
        (some ("HELLO World!!!".toList)) =
      pyStrip (collapseWs (stageStop (false && true) []
        (stageSlang [] (stagePunct true (stageLower true
          (pyStrip (nanBlank (pyStrCell (some ("HELLO World!!!".toList)))))))))) := by
  have h := C7_stage_order [] true
    [("text", ColData.strs [some ("HELLO World!!!".toList)])] ["text"]
    true true false [] (by decide) (by decide)
  exact ⟨h.1, h.2.1 [] (some ("HELLO World!!!".toList))⟩

/-- Element of an element-wise `or` of masks. -/
theorem maskOr_getD (a : List Bool) :
    ∀ (b : List Bool) (i : ℕ), i < a.length → i < b.length →
    (maskOr a b).getD i false = (a.getD i false || b.getD i false) := by
  induction a with
  | nil => intro b i hi _; cases hi
  | cons x xs ih =>
    intro b i hi hib
    cases b with
    | nil => cases hib
    | cons y ys =>
      cases i with
      | zero => rfl
      | succ j =>
        simp only [maskOr, List.zipWith_cons_cons, List.getD_cons_succ]
        exact ih ys j (Nat.lt_of_succ_lt_succ hi) (Nat.lt_of_succ_lt_succ hib)

/-- Length of an element-wise `or` of masks. -/
theorem maskOr_length (a b : List Bool) :
    (maskOr a b).length = min a.length b.length := by
  simp [maskOr]

/-- The mask fold of the detector: length invariant and element-wise
characterisation as a disjunction over the folded columns. -/
theorem foldl_maskOr_spec (f : String → List Bool) (n : ℕ) :
    ∀ (cols : List String) (init : List Bool), init.length = n →
    (∀ c ∈ cols, (f c).length = n) →
    ((cols.foldl (fun m c => maskOr m (f c)) init).length = n ∧
     ∀ i, i < n →
       (cols.foldl (fun m c => maskOr m (f c)) init).getD i false =
         (init.getD i false || cols.any (fun c => (f c).getD i false))) := by
  intro cols
  induction cols with
  | nil => intro init hlen _; exact ⟨hlen, fun i _ => by simp⟩
  | cons c cs ih =>
    intro init hlen hf
    have hfc : (f c).length = n := hf c (List.mem_cons_self c cs)
    have hlen2 : (maskOr init (f c)).length = n := by
      rw [maskOr_length, hlen, hfc, min_self]
    obtain ⟨ihl, ihe⟩ := ih (maskOr init (f c)) hlen2
      (fun c2 m => hf c2 (List.mem_cons_of_mem c m))
    refine ⟨by simpa using ihl, ?_⟩
    intro i hi
    have := ihe i hi
    simp only [List.foldl_cons] at this ⊢
    rw [this, maskOr_getD init (f c) i (hlen ▸ hi) (hfc ▸ hi)]
    simp [Bool.or_assoc]

/-- A column retrieved from a table is one of its entries. -/
theorem getCol_mem (t : Table) (c : String) (d : ColData)
    (h : getCol t c = some d) : (c, d) ∈ t := by
  induction t with
  | nil => cases h
  | cons p ps ih =>
    by_cases hc : p.1 = c
    · rw [getCol, List.find?_cons_of_pos _ (by simpa using hc)] at h
      have hd : p.2 = d := by
        simpa using h
      subst hd
      refine List.mem_cons.mpr (Or.inl ?_)
      rw [← hc]
    · rw [getCol, List.find?_cons_of_neg _ (by simpa using hc)] at h
      exact List.mem_cons_of_mem p (ih h)

/-- In a well-formed table every retrieved column has the table's row
count. -/
theorem getCol_clen (t : Table) (hwf : WellFormed t) (c : String)
    (d : ColData) (h : getCol t c = some d) : d.clen = nRows t :=
  hwf (c, d) (getCol_mem t c d h)

/-- The numeric view keeps a column's length. -/
theorem ratCells_length (d : ColData) (vs : List (Option ℚ))
    (h : d.ratCells = some vs) : vs.length = d.clen := by
  cases d with
  | nums ws =>
    simp only [ColData.ratCells, Option.some_inj] at h
    subst h; rfl
  | strs ws => cases h
  | bools ws =>
    simp only [ColData.ratCells, Option.some_inj] at h
    subst h
    simp [ColData.clen]

/-- A contained column name can be retrieved. -/
theorem hasCol_getCol (t : Table) (c : String) (h : hasCol t c = true) :
    ∃ d, getCol t c = some d := by
  induction t with
  | nil => simp [hasCol, colNames] at h
  | cons p ps ih =>
    by_cases hc : p.1 = c
    · refine ⟨p.2, ?_⟩
      rw [getCol, List.find?_cons_of_pos _ (by simpa using hc)]
      rfl
    · have h2 : hasCol ps c = true := by
        simp only [hasCol, colNames, List.map_cons, List.contains_cons] at h
        rcases Bool.or_eq_true_iff.mp h with h1 | h1
        · have hcp : c = p.1 := by simpa using h1
          exact absurd hcp.symm hc
        · exact h1
      obtain ⟨d, hd⟩ := ih h2
      refine ⟨d, ?_⟩
      rw [getCol, List.find?_cons_of_neg _ (by simpa using hc)]
      exact hd

/-- An empty missing-columns set means every requested column is
present. -/
theorem missingCols_nil (columns : List String) (t : Table)
    (h : missingCols columns t = []) :
    ∀ c ∈ columns, hasCol t c = true := by
  intro c hc
  have h2 : columns.filter (fun c => !hasCol t c) = [] :=
    (List.dedup_eq_nil _).mp h
  have h3 := List.filter_eq_nil_iff.mp h2 c hc
  simpa using h3

/-- A list of squared deviations summing to zero pins every element to the
centre. -/
theorem sum_sq_zero (m : ℚ) :
    ∀ (l : List ℚ), (l.map (fun x => (x - m) ^ 2)).sum = 0 → ∀ x ∈ l, x = m := by
  intro l
  induction l with
  | nil => intro _ x hx; cases hx
  | cons a as ih =>
    intro h x hx
    rw [List.map_cons, List.sum_cons] at h
    have h1 : 0 ≤ (a - m) ^ 2 := sq_nonneg _
    have h2 : 0 ≤ (as.map (fun x => (x - m) ^ 2)).sum :=
      List.sum_nonneg (fun y hy => by
        obtain ⟨z, _, rfl⟩ := List.mem_map.mp hy
        exact sq_nonneg _)
    have ha : (a - m) ^ 2 = 0 := le_antisymm (by linarith) h1
    have hs : (as.map (fun x => (x - m) ^ 2)).sum = 0 := by linarith
    rcases List.mem_cons.mp hx with rfl | hx2
    · have := pow_eq_zero_iff (two_ne_zero) |>.mp ha
      linarith [sub_eq_zero.mp this]
    · exact ih hs x hx2

/-- Zero sample variance means at least two observations, all equal to the
mean. -/
theorem var_zero_all_eq (vs : List (Option ℚ))
    (h : seriesVar vs = some 0) :
    2 ≤ (vs.filterMap id).length ∧
    ∀ x ∈ vs.filterMap id,
      x = (vs.filterMap id).sum / ((vs.filterMap id).length : ℚ) := by
  simp only [seriesVar] at h
  by_cases hn : (vs.filterMap id).length < 2
  · rw [if_pos hn] at h; cases h
  · rw [if_neg hn] at h
    refine ⟨by omega, ?_⟩
    intro x hx
    have hden : (((vs.filterMap id).length - 1 : ℕ) : ℚ) ≠ 0 :=
      Nat.cast_ne_zero.mpr (by omega)
    have hsum : ((vs.filterMap id).map
        (fun y => (y - (vs.filterMap id).sum / ((vs.filterMap id).length : ℚ)) ^ 2)).sum = 0 := by
      have h2 : ((vs.filterMap id).map
          (fun y => (y - (vs.filterMap id).sum / ((vs.filterMap id).length : ℚ)) ^ 2)).sum /
          (((vs.filterMap id).length - 1 : ℕ) : ℚ) = 0 := by
        simpa using h
      rcases div_eq_zero_iff.mp h2 with h3 | h3
      · exact h3
      · exact absurd h3 hden
    exact sum_sq_zero _ _ hsum x hx

/-- `getD` of an everywhere-equal list at a valid index. -/
theorem allEq_getD (l : List ℚ) (m : ℚ) (hall : ∀ x ∈ l, x = m) (i : ℕ)
    (hi : i < l.length) (d : ℚ) : l.getD i d = m := by
  rw [List.getD_eq_getElem l d hi]
  exact hall _ (List.getElem_mem hi)

/-- Quantile of a constant series is that constant, for `0 ≤ q ≤ 1`. -/
theorem quantile_const (vs : List (Option ℚ)) (m : ℚ)
    (hall : ∀ x ∈ vs.filterMap id, x = m)
    (hne : vs.filterMap id ≠ []) (q : ℚ) (hq0 : 0 ≤ q) (hq1 : q ≤ 1) :
    seriesQuantile vs q = some m := by
  simp only [seriesQuantile]
  have hperm := List.perm_insertionSort (· ≤ ·) (vs.filterMap id)
  have hall2 : ∀ x ∈ (vs.filterMap id).insertionSort (· ≤ ·), x = m :=
    fun x hx => hall x (hperm.mem_iff.mp hx)
  have hlen : ((vs.filterMap id).insertionSort (· ≤ ·)).length =
      (vs.filterMap id).length := hperm.length_eq
  have hpos : 0 < ((vs.filterMap id).insertionSort (· ≤ ·)).length := by
    rw [hlen]
    exact List.length_pos.mpr hne
  rw [if_neg (by omega)]
  have hfl : (⌊((((vs.filterMap id).insertionSort (· ≤ ·)).length - 1 : ℕ) : ℚ) * q⌋).toNat <
      ((vs.filterMap id).insertionSort (· ≤ ·)).length := by
    have hle : ((((vs.filterMap id).insertionSort (· ≤ ·)).length - 1 : ℕ) : ℚ) * q ≤
        ((((vs.filterMap id).insertionSort (· ≤ ·)).length - 1 : ℕ) : ℚ) :=
      mul_le_of_le_one_right (by positivity) hq1
    have h2 : (⌊((((vs.filterMap id).insertionSort (· ≤ ·)).length - 1 : ℕ) : ℚ) * q⌋) ≤
        ((((vs.filterMap id).insertionSort (· ≤ ·)).length - 1 : ℕ) : ℤ) := by
      have := Int.floor_le_floor hle
      rwa [Int.floor_natCast] at this
    have h3 := Int.toNat_le_toNat h2
    simp only [Int.toNat_natCast] at h3
    omega
  have ha : ((vs.filterMap id).insertionSort (· ≤ ·)).getD
      (⌊((((vs.filterMap id).insertionSort (· ≤ ·)).length - 1 : ℕ) : ℚ) * q⌋).toNat 0 = m :=
    allEq_getD _ m hall2 _ hfl 0
  have hb : ((vs.filterMap id).insertionSort (· ≤ ·)).getD
      ((⌊((((vs.filterMap id).insertionSort (· ≤ ·)).length - 1 : ℕ) : ℚ) * q⌋).toNat + 1) m = m := by
    by_cases h2 : (⌊((((vs.filterMap id).insertionSort (· ≤ ·)).length - 1 : ℕ) : ℚ) * q⌋).toNat + 1 <
        ((vs.filterMap id).insertionSort (· ≤ ·)).length
    · exact allEq_getD _ m hall2 _ h2 _
    · rw [List.getD_eq_default _ _ (by omega)]
  rw [ha, hb]
  simp

/-- `getD` of a pointwise-false boolean map is false at every index. -/
theorem getD_map_false {α : Type} (vs : List α) (f : α → Bool)
    (h : ∀ a ∈ vs, f a = false) (i : ℕ) : (vs.map f).getD i false = false := by
  rw [List.getD_eq_getElem?_getD, List.getElem?_map]
  cases hv : vs[i]? with
  | none => rfl
  | some a => simp [h a (List.getElem?_mem hv)]

/-- On a zero-variance column both per-column methods flag no row. -/
theorem stdZero_colMask (method : String) (t : ℚ) (vs : List (Option ℚ))
    (hz : seriesStdZero vs = true) (i : ℕ) :
    (methodColMask method t vs).getD i false = false := by
  have hvar : seriesVar vs = some 0 := by
    cases hv : seriesVar vs with
    | none => rw [seriesStdZero, hv] at hz; cases hz
    | some v =>
      rw [seriesStdZero, hv] at hz
      have : v = 0 := by simpa using hz
      rw [this]
  obtain ⟨hn2, hall⟩ := var_zero_all_eq vs hvar
  have hne : vs.filterMap id ≠ [] := by
    intro hc; rw [hc] at hn2; simp at hn2
  have hmem : ∀ (cell : Option ℚ), cell ∈ vs → ∀ x, cell = some x →
      x = (vs.filterMap id).sum / ((vs.filterMap id).length : ℚ) := by
    intro cell hc x hx
    exact hall x (List.mem_filterMap.mpr ⟨cell, hc, by rw [hx]; rfl⟩)
  simp only [methodColMask]
  by_cases hm : method = "iqr"
  · rw [if_pos hm]
    have hq1 := quantile_const vs _ hall hne (1 / 4) (by norm_num) (by norm_num)
    have hq3 := quantile_const vs _ hall hne (3 / 4) (by norm_num) (by norm_num)
    simp only [iqrColMask]
    rw [hq1, hq3]
    apply getD_map_false
    intro cell hc
    cases cell with
    | none => rfl
    | some x =>
      have hx := hmem _ hc x rfl
      simp [iqrFlagCell, hx]
  · rw [if_neg hm]
    simp only [zColMask]
    rw [hvar]
    apply getD_map_false
    intro cell hc
    cases cell with
    | none => rfl
    | some x =>
      have hx := hmem _ hc x rfl
      have hlz : ¬((vs.filterMap id).length = 0) := by omega
      simp [zFlagCell, hlz, hx]

/-- Boolean-mask row selection, characterised positionally: the kept
elements are exactly those at unflagged indices, in increasing index
order. -/
theorem dropFlagged_eq_filter_range {α : Type} :
    ∀ (mask : List Bool) (vs : List α) (d : α), vs.length = mask.length →
    dropFlagged mask vs =
      ((List.range mask.length).filter (fun i => !(mask.getD i false))).map
        (fun i => vs.getD i d) := by
  intro mask
  induction mask with
  | nil =>
    intro vs d hlen
    rw [List.length_eq_zero.mp hlen]
    rfl
  | cons m ms ih =>
    intro vs d hlen
    cases vs with
    | nil => simp at hlen
    | cons v vs2 =>
      have hlen2 : vs2.length = ms.length := by simpa using hlen
      have hrange : List.range (m :: ms).length =
          0 :: (List.range ms.length).map Nat.succ := by
        simp [List.range_succ_eq_map]
      rw [hrange, List.filter_cons, List.filter_map]
      have hcomp : ((fun i => !((m :: ms).getD i false)) ∘ Nat.succ) =
          (fun i => !(ms.getD i false)) := by
        funext i; rfl
      rw [hcomp]
      have hmap : ∀ (l : List ℕ),
          (l.map Nat.succ).map (fun i => (v :: vs2).getD i d) =
            l.map (fun i => vs2.getD i d) := by
        intro l; rw [List.map_map]; rfl
      cases m with
      | false =>
        simp only [List.getD_cons_zero, Bool.not_false, if_true]
        rw [List.map_cons, hmap, ← ih vs2 d hlen2]
        rfl
      | true =>
        simp only [List.getD_cons_zero, Bool.not_true, Bool.false_eq_true,
          if_false]
        rw [hmap, ← ih vs2 d hlen2]
        rfl

/-- Assigning a fresh column name appends it after the existing columns. -/
theorem setCol_of_not_hasCol (t : Table) (c : String) (d : ColData)
    (h : hasCol t c = false) : setCol t c d = t ++ [(c, d)] := by
  induction t with
  | nil => rfl
  | cons p ps ih =>
    rcases p with ⟨n, d0⟩
    have hnc : ¬(n = c) := by
      intro hh
      rw [hasCol, colNames] at h
      simp [hh] at h
    have hps : hasCol ps c = false := by
      rw [hasCol, colNames] at h
      simp only [List.map_cons, List.contains_cons] at h
      exact (Bool.or_eq_false_iff.mp h).2
    simp only [setCol, if_neg hnc, List.cons_append]
    rw [ih hps]

/-- Per-column masks have the column's length. -/
theorem methodColMask_length (method : String) (t : ℚ)
    (vs : List (Option ℚ)) : (methodColMask method t vs).length = vs.length := by
  rw [methodColMask]
  by_cases hm : method = "iqr"
  · simp [hm, iqrColMask]
  · simp [hm, zColMask]

/-- In a well-formed table, the numeric view of an existing numeric column
has the table's row count. -/
theorem colRats_length (df : Table) (hwf : WellFormed df) (c : String)
    (hc : hasCol df c = true)
    (hn : ((getCol df c).map ColData.isNumericDtype).getD false = true) :
    (((getCol df c).bind ColData.ratCells).getD []).length = nRows df := by
  obtain ⟨d, hd⟩ := hasCol_getCol df c hc
  have hnum : d.isNumericDtype = true := by
    rw [hd] at hn; simpa using hn
  have hex : ∃ vs, d.ratCells = some vs := by
    cases d with
    | nums ws => exact ⟨ws, rfl⟩
    | strs ws => simp [ColData.isNumericDtype] at hnum
    | bools ws => exact ⟨_, rfl⟩
  obtain ⟨vs, hvs⟩ := hex
  rw [hd]
  have hbind : (some d).bind ColData.ratCells = some vs := by
    rw [Option.some_bind, hvs]
  rw [hbind, Option.getD_some, ratCells_length d vs hvs]
  exact getCol_clen df hwf c d hd

/-- `getD` of a replicated-false mask is false. -/
theorem getD_replicate_false (n i : ℕ) :
    (List.replicate n false).getD i false = false := by
  rw [List.getD_eq_getElem?_getD, List.getElem?_replicate]
  by_cases hi : i < n
  · simp [hi]
  · simp [hi]

/-- C8 counterexample: when every target column has zero variance the
detector returns before dispatching on `action`, so `action="flag"` adds
no boolean outlier column — while the claim says a flag column marking
the (empty) outlier set is added. -/
theorem C8_counterexample :
    detect_outliers (fun _ _ => []) (fun _ _ => [])
      [("c", ColData.nums [some 1, some 1])] ["c"] ("iqr") none ("flag") =
      .ok [("c", ColData.nums [some 1, some 1])] ∧
    hasCol [("c", ColData.nums [some 1, some 1])] ("is_outlier") = false := by
  have hz : seriesStdZero [some (1 : ℚ), some 1] = true := by
    simp [seriesStdZero, seriesVar]
  refine ⟨?_, by decide⟩
  simp [detect_outliers, validCols, missingCols, hasCol, colNames, getCol,
    ColData.ratCells, ColData.isNumericDtype, hz]

/-- C8 amended: for the per-column methods (IQR, z-score), provided at
least one target column has nonzero variance, the detector's row mask is
the union of the per-column masks — a row is flagged exactly when at
least one target column flags it (zero-variance columns flag nothing);
`action="remove"` drops exactly the flagged rows, keeping the rest in
original order, and `action="flag"` removes no rows and assigns the
boolean `is_outlier` column marking exactly the flagged rows (appending
it when no column of that name exists). -/
theorem C8_mask_union_actions
    (isoFit lofFit : List String → Table → List Bool) (df : Table)
    (columns : List String) (method : String) (threshold : Option ℚ)
    (hwf : WellFormed df) (hmiss : missingCols columns df = [])
    (hnum : ∀ c ∈ columns,
      ((getCol df c).map ColData.isNumericDtype).getD false = true)
    (hmethod : method = "iqr" ∨ method = "zscore")
    (hvalid : validCols df columns ≠ []) :
    (detectMask method (resolvedThreshold method threshold) df
      (validCols df columns)).length = nRows df ∧
    (∀ i, i < nRows df →
      ((detectMask method (resolvedThreshold method threshold) df
          (validCols df columns)).getD i false = true ↔
        ∃ c ∈ columns,
          (methodColMask method (resolvedThreshold method threshold)
            (((getCol df c).bind ColData.ratCells).getD [])).getD i false = true)) ∧
    detect_outliers isoFit lofFit df columns method threshold ("remove") =
      .ok (removeRows (detectMask method (resolvedThreshold method threshold)
        df (validCols df columns)) df) ∧
    (∀ (vs : List (Option ℚ)) (d : Option ℚ), vs.length = nRows df →
      dropFlagged (detectMask method (resolvedThreshold method threshold) df
        (validCols df columns)) vs =
        ((List.range (nRows df)).filter
          (fun i => !((detectMask method (resolvedThreshold method threshold)
            df (validCols df columns)).getD i false))).map
          (fun i => vs.getD i d)) ∧
    detect_outliers isoFit lofFit df columns method threshold ("flag") =
      .ok (setCol df ("is_outlier")
        (.bools (detectMask method (resolvedThreshold method threshold) df
          (validCols df columns)))) ∧
    (hasCol df ("is_outlier") = false →
      setCol df ("is_outlier")
        (.bools (detectMask method (resolvedThreshold method threshold) df
          (validCols df columns))) =
        df ++ [(("is_outlier" : String),
          ColData.bools (detectMask method (resolvedThreshold method threshold)
            df (validCols df columns)))]) := by
  have hVsub : ∀ c ∈ validCols df columns, c ∈ columns :=
    fun c hc => List.mem_of_mem_filter hc
  have hflen : ∀ c ∈ columns,
      (methodColMask method (resolvedThreshold method threshold)
        (((getCol df c).bind ColData.ratCells).getD [])).length = nRows df := by
    intro c hc
    rw [methodColMask_length]
    exact colRats_length df hwf c (missingCols_nil columns df hmiss c hc)
      (hnum c hc)
  have hspec := foldl_maskOr_spec
    (fun c => methodColMask method (resolvedThreshold method threshold)
      (((getCol df c).bind ColData.ratCells).getD []))
    (nRows df) (validCols df columns) (List.replicate (nRows df) false)
    (List.length_replicate _ _) (fun c hc => hflen c (hVsub c hc))
  have h1 : (detectMask method (resolvedThreshold method threshold) df
      (validCols df columns)).length = nRows df := hspec.1
  have hfind : columns.find?
      (fun c => !(((getCol df c).map ColData.isNumericDtype).getD false)) = none := by
    rw [List.find?_eq_none]
    intro c hc
    simp [hnum c hc]
  refine ⟨h1, ?_, ?_, ?_, ?_, ?_⟩
  · intro i hi
    have he := hspec.2 i hi
    rw [detectMask, he, getD_replicate_false]
    simp only [Bool.false_or]
    rw [List.any_eq_true]
    constructor
    · rintro ⟨c, hcV, hfc⟩
      exact ⟨c, hVsub c hcV, hfc⟩
    · rintro ⟨c, hc, hfc⟩
      by_cases hp : (!seriesStdZero (((getCol df c).bind ColData.ratCells).getD [])) = true
      · exact ⟨c, List.mem_filter.mpr ⟨hc, hp⟩, hfc⟩
      · have hzv : seriesStdZero (((getCol df c).bind ColData.ratCells).getD []) = true := by
          simpa using hp
        rw [stdZero_colMask method (resolvedThreshold method threshold) _ hzv i] at hfc
        cases hfc
  · rcases hmethod with hm | hm <;>
      simp [detect_outliers, hmiss, hfind, hvalid, hm]
  · intro vs d hlen
    have hd := dropFlagged_eq_filter_range
      (detectMask method (resolvedThreshold method threshold) df
        (validCols df columns)) vs d (by rw [h1]; exact hlen)
    rwa [h1] at hd
  · rcases hmethod with hm | hm <;>
      simp [detect_outliers, hmiss, hfind, hvalid, hm]
  · intro hno
    exact setCol_of_not_hasCol df _ _ hno

/-- Witness for C8 amended at a concrete IQR example (the spec's shape:
one clear outlier 100 among small values). -/
theorem C8_mask_union_actions_witness :
    (detectMask ("iqr") (resolvedThreshold ("iqr") none)
      [("v", ColData.nums [some 10, some 11, some 12, some 13, some 100])]
      (validCols [("v", ColData.nums [some 10, some 11, some 12, some 13, some 100])] ["v"])).length =
      nRows [("v", ColData.nums [some 10, some 11, some 12, some 13, some 100])] ∧
    detect_outliers (fun _ _ => []) (fun _ _ => [])
      [("v", ColData.nums [some 10, some 11, some 12, some 13, some 100])]
      ["v"] ("iqr") none ("remove") =
      .ok (removeRows (detectMask ("iqr") (resolvedThreshold ("iqr") none)
        [("v", ColData.nums [some 10, some 11, some 12, some 13, some 100])]
        (validCols [("v", ColData.nums [some 10, some 11, some 12, some 13, some 100])] ["v"]))
        [("v", ColData.nums [some 10, some 11, some 12, some 13, some 100])]) ∧
    detect_outliers (fun _ _ => []) (fun _ _ => [])
      [("v", ColData.nums [some 10, some 11, some 12, some 13, some 100])]
      ["v"] ("iqr") none ("flag") =
      .ok (setCol [("v", ColData.nums [some 10, some 11, some 12, some 13, some 100])]
        ("is_outlier")
        (.bools (detectMask ("iqr") (resolvedThreshold ("iqr") none)
          [("v", ColData.nums [some 10, some 11, some 12, some 13, some 100])]
          (validCols [("v", ColData.nums [some 10, some 11, some 12, some 13, some 100])] ["v"])))) := by
  have hz : seriesStdZero [some (10 : ℚ), some 11, some 12, some 13, some 100] = false := by
    simp [seriesStdZero, seriesVar]
    norm_num
  have h := C8_mask_union_actions (fun _ _ => []) (fun _ _ => [])
    [("v", ColData.nums [some 10, some 11, some 12, some 13, some 100])]
    ["v"] ("iqr") none
    (by intro p hp; rw [List.mem_singleton.mp hp]; rfl) (by decide)
    (by decide) (Or.inl rfl)
    (by simp [validCols, getCol, ColData.ratCells, hz])
  exact ⟨h.1, h.2.2.1, h.2.2.2.2.1⟩

/-- `lstrip` is idempotent. -/
theorem lstrip_idem (l : PyStr) : lstrip (lstrip l) = lstrip l :=
  List.dropWhile_idempotent _ _

/-- `rstrip` is idempotent. -/
theorem rstrip_idem (l : PyStr) : rstrip (rstrip l) = rstrip l := by
  rw [rstrip, rstrip, List.reverse_reverse, List.dropWhile_idempotent]

/-- An all-whitespace string right-strips to nothing. -/
theorem allWs_rstrip_nil (l : PyStr) (h : ∀ c ∈ l, isWs c = true) :
    rstrip l = [] := by
  rw [rstrip,
    List.dropWhile_eq_nil_iff.mpr (fun x hx => h x (List.mem_reverse.mp hx))]
  rfl

/-- Right-strip passes over a prefix when the suffix keeps content. -/
theorem rstrip_append (w m : PyStr) (hm : rstrip m ≠ []) :
    rstrip (w ++ m) = w ++ rstrip m := by
  have h2 : (m.reverse.dropWhile isWs).isEmpty = false := by
    rw [List.isEmpty_eq_false]
    intro hc
    exact hm (by rw [rstrip, hc]; rfl)
  rw [rstrip, List.reverse_append, List.dropWhile_append, h2]
  simp only [Bool.false_eq_true, if_false, List.reverse_append,
    List.reverse_reverse]
  rfl

/-- `rstrip l` is a prefix of `l`. -/
theorem rstrip_prefix (m : PyStr) : rstrip m <+: m := by
  refine ⟨(m.reverse.takeWhile isWs).reverse, ?_⟩
  rw [rstrip, ← List.reverse_append, List.takeWhile_append_dropWhile,
    List.reverse_reverse]

/-- A string whose head is not whitespace left-strips to itself. -/
theorem lstrip_eq_self_of_head (m : PyStr)
    (h : ∀ c, m.head? = some c → isWs c = false) : lstrip m = m := by
  cases m with
  | nil => rfl
  | cons c cs =>
    rw [lstrip, List.dropWhile_cons_of_neg]
    simp [h c rfl]

/-- The head of a left-strip is not whitespace. -/
theorem lstrip_head (l : PyStr) :
    ∀ c, (lstrip l).head? = some c → isWs c = false := by
  induction l with
  | nil => intro c hc; cases hc
  | cons a as ih =>
    intro c hc
    by_cases ha : isWs a = true
    · rw [lstrip, List.dropWhile_cons_of_pos ha] at hc
      exact ih c hc
    · rw [lstrip, List.dropWhile_cons_of_neg (by simpa using ha)] at hc
      have hca : c = a := by simpa using hc.symm
      rw [hca]
      simpa using ha

/-- A non-empty right-strip starts with the original head. -/
theorem head?_of_rstrip (m : PyStr) (c : Char)
    (h : (rstrip m).head? = some c) : m.head? = some c := by
  obtain ⟨tr, htr⟩ := rstrip_prefix m
  cases hc : rstrip m with
  | nil => rw [hc] at h; cases h
  | cons a r =>
    rw [hc] at h htr
    rw [← htr]
    simpa using h

/-- The two one-sided strips commute. -/
theorem lstrip_rstrip_comm (l : PyStr) :
    lstrip (rstrip l) = rstrip (lstrip l) := by
  cases hm : lstrip l with
  | nil =>
    have hall : ∀ c ∈ l, isWs c = true := List.dropWhile_eq_nil_iff.mp hm
    rw [allWs_rstrip_nil l hall]
    rfl
  | cons a m2 =>
    have hhead : isWs a = false := lstrip_head l a (by rw [hm]; rfl)
    have hsplit : l.takeWhile isWs ++ (a :: m2) = l := by
      rw [← hm]
      exact List.takeWhile_append_dropWhile isWs l
    have hwAll : ∀ c ∈ l.takeWhile isWs, isWs c = true :=
      fun c hc => List.mem_takeWhile_imp hc
    have hmne : rstrip (a :: m2) ≠ [] := by
      intro hc
      have h2 : (a :: m2).reverse.dropWhile isWs = [] := by
        rw [rstrip] at hc
        exact List.reverse_eq_nil_iff.mp hc
      have h3 := List.dropWhile_eq_nil_iff.mp h2 a
        (List.mem_reverse.mpr (List.mem_cons_self a m2))
      rw [h3] at hhead
      cases hhead
    calc lstrip (rstrip l)
        = lstrip (rstrip (l.takeWhile isWs ++ (a :: m2))) := by rw [hsplit]
      _ = lstrip (l.takeWhile isWs ++ rstrip (a :: m2)) := by
            rw [rstrip_append _ _ hmne]
      _ = lstrip (rstrip (a :: m2)) := by
            rw [lstrip, List.dropWhile_append]
            rw [show ((l.takeWhile isWs).dropWhile isWs).isEmpty = true by
              rw [List.dropWhile_eq_nil_iff.mpr hwAll]; rfl]
            rfl
      _ = rstrip (a :: m2) := by
            apply lstrip_eq_self_of_head
            intro c hc
            have h4 := head?_of_rstrip _ _ hc
            have hca : c = a := by simpa using h4.symm
            rw [hca]
            exact hhead

/-- `str.strip()` is idempotent. -/
theorem pyStrip_idem (l : PyStr) : pyStrip (pyStrip l) = pyStrip l := by
  rw [pyStrip, pyStrip, ← lstrip_rstrip_comm (rstrip l), rstrip_idem,
    lstrip_idem]

/-- Characters of a left-strip come from the string. -/
theorem mem_lstrip (l : PyStr) (c : Char) (h : c ∈ lstrip l) : c ∈ l :=
  (List.dropWhile_sublist _).subset h

/-- Characters of a right-strip come from the string. -/
theorem mem_rstrip (l : PyStr) (c : Char) (h : c ∈ rstrip l) : c ∈ l := by
  rw [rstrip] at h
  have h2 := (List.dropWhile_sublist isWs).subset (List.mem_reverse.mp h)
  exact List.mem_reverse.mp h2

/-- Characters of a strip come from the string. -/
theorem mem_pyStrip (l : PyStr) (c : Char) (h : c ∈ pyStrip l) : c ∈ l :=
  mem_rstrip l c (mem_lstrip (rstrip l) c h)

/-- Characters of a whitespace collapse come from the string, or are the
space the collapse inserts. -/
theorem mem_collapseAux (c : Char) : ∀ (l : PyStr) (b : Bool),
    c ∈ collapseAux b l → c ∈ l ∨ c = ' ' := by
  intro l
  induction l with
  | nil => intro b h; cases h
  | cons a as ih =>
    intro b h
    by_cases ha : isWs a = true
    · cases b with
      | true =>
        simp only [collapseAux, ha, if_true] at h
        rcases ih true h with h2 | h2
        · exact Or.inl (List.mem_cons_of_mem a h2)
        · exact Or.inr h2
      | false =>
        simp only [collapseAux, ha, if_true, Bool.false_eq_true, if_false] at h
        rcases List.mem_cons.mp h with h2 | h2
        · exact Or.inr h2
        · rcases ih true h2 with h3 | h3
          · exact Or.inl (List.mem_cons_of_mem a h3)
          · exact Or.inr h3
    · simp only [collapseAux, ha, Bool.false_eq_true, if_false] at h
      rcases List.mem_cons.mp h with h2 | h2
      · exact Or.inl (h2 ▸ List.mem_cons_self a as)
      · rcases ih false h2 with h3 | h3
        · exact Or.inl (List.mem_cons_of_mem a h3)
        · exact Or.inr h3

/-- Structure of a collapse: both entry flags produce whitespace-normal
output, and from inside a run the output cannot start with whitespace. -/
theorem collapseAux_wsNorm : ∀ (l : PyStr),
    (WsNorm (collapseAux false l) ∧ WsNorm (collapseAux true l)) ∧
    (∀ c, (collapseAux true l).head? = some c → isWs c = false) := by
  intro l
  induction l with
  | nil =>
    refine ⟨⟨⟨?_, List.chain'_nil⟩, ⟨?_, List.chain'_nil⟩⟩, ?_⟩
    · intro c hc; cases hc
    · intro c hc; cases hc
    · intro c hc; cases hc
  | cons a as ih =>
    obtain ⟨⟨ihF, ihT⟩, ihH⟩ := ih
    by_cases ha : isWs a = true
    · have hF : collapseAux false (a :: as) = ' ' :: collapseAux true as := by
        simp [collapseAux, ha]
      have hT : collapseAux true (a :: as) = collapseAux true as := by
        simp [collapseAux, ha]
      refine ⟨⟨?_, ?_⟩, ?_⟩
      · rw [hF]
        constructor
        · intro c hc _
          rcases List.mem_cons.mp hc with h2 | h2
          · exact h2
          · rcases mem_collapseAux c as true h2 with h3 | h3
            · exact ihT.1 c h2 (by assumption)
            · exact h3
        · rw [List.chain'_cons']
          refine ⟨?_, ihT.2⟩
          intro h hh hand
          rw [ihH h hh] at hand
          exact absurd hand.2 (by simp)
      · rw [hT]; exact ihT
      · rw [hT]; exact ihH
    · have hF : collapseAux false (a :: as) = a :: collapseAux false as := by
        simp [collapseAux, ha]
      have hT : collapseAux true (a :: as) = a :: collapseAux false as := by
        simp [collapseAux, ha]
      have hnorm : WsNorm (a :: collapseAux false as) := by
        constructor
        · intro c hc hw
          rcases List.mem_cons.mp hc with h2 | h2
          · rw [h2] at hw
            rw [hw] at ha
            cases ha rfl
          · exact ihF.1 c h2 hw
        · rw [List.chain'_cons']
          refine ⟨?_, ihF.2⟩
          intro h _ hand
          rw [hand.1] at ha
          cases ha rfl
      refine ⟨⟨?_, ?_⟩, ?_⟩
      · rw [hF]; exact hnorm
      · rw [hT]; exact hnorm
      · rw [hT]
        intro c hc
        have hca : c = a := by simpa using hc.symm
        rw [hca]
        simpa using ha

/-- `re.sub(r'\s+', ' ', s)` output is whitespace-normal. -/
theorem wsNorm_collapseWs (l : PyStr) : WsNorm (collapseWs l) :=
  (collapseAux_wsNorm l).1.1

/-- Whitespace-normality restricts to contiguous substrings. -/
theorem wsNorm_infix {l l2 : PyStr} (h : WsNorm l) (hi : l2 <:+: l) :
    WsNorm l2 := by
  refine ⟨fun c hc hw => h.1 c (hi.subset hc) hw, ?_⟩
  obtain ⟨s, t, rfl⟩ := hi
  have h2 := h.2
  rw [List.append_assoc] at h2
  exact (List.chain'_append.mp (List.chain'_append.mp h2).2.1).1

/-- A strip of a string is a contiguous substring of it. -/
theorem pyStrip_infix (l : PyStr) : pyStrip l <:+: l := by
  have h1 : lstrip (rstrip l) <:+ rstrip l := List.dropWhile_suffix _
  have h2 : rstrip l <+: l := rstrip_prefix l
  exact h1.isInfix.trans h2.isInfix

/-- Collapsing is the identity on whitespace-normal text (entering inside
a run additionally needs a non-whitespace head). -/
theorem collapseAux_eq_self : ∀ (l : PyStr), WsNorm l →
    (collapseAux false l = l ∧
     ∀ a as, l = a :: as → isWs a = false → collapseAux true l = l) := by
  intro l
  induction l with
  | nil => exact fun _ => ⟨rfl, fun a as h => by cases h⟩
  | cons a as ih =>
    intro hn
    have hn2 : WsNorm as :=
      ⟨fun c hc hw => hn.1 c (List.mem_cons_of_mem a hc) hw,
       (List.chain'_cons'.mp hn.2).2⟩
    obtain ⟨ihF, ihT⟩ := ih hn2
    by_cases ha : isWs a = true
    · have haSp : a = ' ' := hn.1 a (List.mem_cons_self a as) ha
      constructor
      · cases as with
        | nil => simp [collapseAux, ha, haSp]
        | cons b bs =>
          have hR := (List.chain'_cons'.mp hn.2).1 b rfl
          have hb : isWs b = false := by
            by_contra hbb
            exact hR ⟨ha, by simpa using hbb⟩
          have hF2 : b :: collapseAux false bs = b :: bs := by
            have h0 := ihF
            simp only [collapseAux, hb, Bool.false_eq_true, if_false] at h0
            exact h0
          simp only [collapseAux, ha, if_true, Bool.false_eq_true, if_false,
            hb]
          rw [hF2, haSp]
      · intro a2 as2 heq hws
        have ha2 : a = a2 := by
          injection heq with h1 _
        rw [← ha2] at hws
        rw [hws] at ha
        cases ha
    · constructor
      · simp only [collapseAux, ha, Bool.false_eq_true, if_false]
        rw [ihF]
      · intro a2 as2 _ _
        simp only [collapseAux, ha, Bool.false_eq_true, if_false]
        rw [ihF]

/-- Collapsing is the identity on whitespace-normal text. -/
theorem wsNorm_collapse_eq (l : PyStr) (h : WsNorm l) : collapseWs l = l :=
  (collapseAux_eq_self l h).1

/-- Tokens produced by `splitOnP` use only characters of the input. -/
theorem mem_splitOnP_subset (p : Char → Bool) :
    ∀ (l : PyStr) (t : PyStr), t ∈ l.splitOnP p → ∀ c ∈ t, c ∈ l := by
  intro l
  induction l with
  | nil =>
    intro t ht c hc
    rw [List.splitOnP_nil] at ht
    rw [List.mem_singleton.mp ht] at hc
    cases hc
  | cons x xs ih =>
    intro t ht c hc
    rw [List.splitOnP_cons] at ht
    by_cases hp : p x = true
    · rw [if_pos hp] at ht
      rcases List.mem_cons.mp ht with h2 | h2
      · rw [h2] at hc; cases hc
      · exact List.mem_cons_of_mem x (ih t h2 c hc)
    · rw [if_neg hp] at ht
      cases hsp : xs.splitOnP p with
      | nil => exact absurd hsp (List.splitOnP_ne_nil p xs)
      | cons hd tl =>
        rw [hsp, List.modifyHead_cons] at ht
        rcases List.mem_cons.mp ht with h2 | h2
        · rw [h2] at hc
          rcases List.mem_cons.mp hc with h3 | h3
          · exact h3 ▸ List.mem_cons_self x xs
          · exact List.mem_cons_of_mem x
              (ih hd (by rw [hsp]; exact List.mem_cons_self hd tl) c h3)
        · exact List.mem_cons_of_mem x
            (ih t (by rw [hsp]; exact List.mem_cons_of_mem hd h2) c hc)

/-- Tokens produced by `splitOnP` contain no separator character. -/
theorem splitOnP_tokens_not (p : Char → Bool) :
    ∀ (l : PyStr) (t : PyStr), t ∈ l.splitOnP p → ∀ c ∈ t, p c = false := by
  intro l
  induction l with
  | nil =>
    intro t ht c hc
    rw [List.splitOnP_nil] at ht
    rw [List.mem_singleton.mp ht] at hc
    cases hc
  | cons x xs ih =>
    intro t ht c hc
    rw [List.splitOnP_cons] at ht
    by_cases hp : p x = true
    · rw [if_pos hp] at ht
      rcases List.mem_cons.mp ht with h2 | h2
      · rw [h2] at hc; cases hc
      · exact ih t h2 c hc
    · rw [if_neg hp] at ht
      cases hsp : xs.splitOnP p with
      | nil => exact absurd hsp (List.splitOnP_ne_nil p xs)
      | cons hd tl =>
        rw [hsp, List.modifyHead_cons] at ht
        rcases List.mem_cons.mp ht with h2 | h2
        · rw [h2] at hc
          rcases List.mem_cons.mp hc with h3 | h3
          · rw [h3]; simpa using hp
          · exact ih hd (by rw [hsp]; exact List.mem_cons_self hd tl) c h3
        · exact ih t (by rw [hsp]; exact List.mem_cons_of_mem hd h2) c hc

/-- `str.split()` tokens are non-empty, whitespace-free, and made of the
input's characters. -/
theorem pySplit_tokens (l : PyStr) (t : PyStr) (ht : t ∈ pySplit l) :
    t ≠ [] ∧ (∀ c ∈ t, isWs c = false) ∧ (∀ c ∈ t, c ∈ l) := by
  rw [pySplit] at ht
  have h1 := List.mem_filter.mp ht
  refine ⟨?_, splitOnP_tokens_not isWs l t h1.1,
    mem_splitOnP_subset isWs l t h1.1⟩
  have h2 := h1.2
  simp only [Bool.not_eq_true', List.isEmpty_eq_false] at h2
  exact h2

/-- `' '.join` over at least two tokens. -/
theorem joinSp_cons₂ (t b : PyStr) (ts : List PyStr) :
    joinSp (t :: b :: ts) = t ++ ' ' :: joinSp (b :: ts) := by
  simp [joinSp, List.intercalate, List.intersperse_cons_cons]

/-- `' '.join` of one token. -/
theorem joinSp_single (t : PyStr) : joinSp [t] = t := by
  simp [joinSp, List.intercalate]

/-- A join headed by a non-empty token starts with that token's head. -/
theorem joinSp_head? (b : PyStr) (ts : List PyStr) (hb : b ≠ []) :
    (joinSp (b :: ts)).head? = b.head? := by
  cases ts with
  | nil => rw [joinSp_single]
  | cons c ts2 =>
    rw [joinSp_cons₂, List.head?_append]
    cases b with
    | nil => exact absurd rfl hb
    | cons x xs => rfl

/-- A join headed by a non-empty token is non-empty. -/
theorem joinSp_ne_nil (b : PyStr) (ts : List PyStr) (hb : b ≠ []) :
    joinSp (b :: ts) ≠ [] := by
  intro hc
  have h := joinSp_head? b ts hb
  rw [hc] at h
  cases b with
  | nil => exact hb rfl
  | cons x xs => cases h

/-- A chain never pairing two whitespace characters holds on
whitespace-free text. -/
theorem chain'_of_ws_free (t : PyStr) (h : ∀ c ∈ t, isWs c = false) :
    t.Chain' (fun a b => ¬(isWs a = true ∧ isWs b = true)) := by
  induction t with
  | nil => exact List.chain'_nil
  | cons a t2 ih =>
    rw [List.chain'_cons']
    refine ⟨?_, ih (fun c hc => h c (List.mem_cons_of_mem a hc))⟩
    intro y _ hand
    rw [h a (List.mem_cons_self a t2)] at hand
    cases hand.1

/-- Joining non-empty whitespace-free tokens with single spaces yields
whitespace-normal text. -/
theorem wsNorm_joinSp : ∀ (ts : List PyStr),
    (∀ t ∈ ts, t ≠ [] ∧ ∀ c ∈ t, isWs c = false) → WsNorm (joinSp ts) := by
  intro ts
  induction ts with
  | nil =>
    intro _
    exact ⟨fun c hc => absurd hc (List.not_mem_nil c), List.chain'_nil⟩
  | cons t ts2 ih =>
    intro hts
    have ht := hts t (List.mem_cons_self t ts2)
    have hts2 : ∀ u ∈ ts2, u ≠ [] ∧ ∀ c ∈ u, isWs c = false :=
      fun u hu => hts u (List.mem_cons_of_mem t hu)
    cases ts2 with
    | nil =>
      rw [joinSp_single]
      exact ⟨fun c hc hw => absurd (ht.2 c hc) (by rw [hw]; simp),
        chain'_of_ws_free t ht.2⟩
    | cons b ts3 =>
      have hb := hts2 b (List.mem_cons_self b ts3)
      have ihn := ih hts2
      rw [joinSp_cons₂]
      constructor
      · intro c hc hw
        rcases List.mem_append.mp hc with h2 | h2
        · exact absurd (ht.2 c h2) (by rw [hw]; simp)
        · rcases List.mem_cons.mp h2 with h3 | h3
          · exact h3
          · exact ihn.1 c h3 hw
      · rw [List.chain'_append]
        refine ⟨chain'_of_ws_free t ht.2, ?_, ?_⟩
        · rw [List.chain'_cons']
          refine ⟨?_, ihn.2⟩
          intro y hy hand
          rw [joinSp_head? b ts3 hb.1] at hy
          have hyb : y ∈ b := List.mem_of_mem_head? hy
          rw [hb.2 y hyb] at hand
          cases hand.2
        · intro x hx y hy hand
          have hxt : x ∈ t := List.mem_of_mem_getLast? hx
          rw [ht.2 x hxt] at hand
          cases hand.1

/-- A good join has no leading whitespace. -/
theorem lstrip_joinSp (ts : List PyStr)
    (hts : ∀ t ∈ ts, t ≠ [] ∧ ∀ c ∈ t, isWs c = false) :
    lstrip (joinSp ts) = joinSp ts := by
  cases ts with
  | nil => rfl
  | cons b ts2 =>
    apply lstrip_eq_self_of_head
    intro c hc
    rw [joinSp_head? b ts2 (hts b (List.mem_cons_self b ts2)).1] at hc
    exact (hts b (List.mem_cons_self b ts2)).2 c (List.mem_of_mem_head? hc)

/-- A right-strip is the identity when the last character is not
whitespace. -/
theorem rstrip_eq_self_of_last (l : PyStr)
    (h : ∀ c, l.reverse.head? = some c → isWs c = false) : rstrip l = l := by
  rw [rstrip,
    show l.reverse.dropWhile isWs = l.reverse from
      lstrip_eq_self_of_head l.reverse h,
    List.reverse_reverse]

/-- The last character of a good join is not whitespace. -/
theorem joinSp_last_not_ws : ∀ (ts : List PyStr),
    (∀ t ∈ ts, t ≠ [] ∧ ∀ c ∈ t, isWs c = false) →
    ∀ c, (joinSp ts).reverse.head? = some c → isWs c = false := by
  intro ts
  induction ts with
  | nil => intro _ c hc; cases hc
  | cons t ts2 ih =>
    intro hts c hc
    have ht := hts t (List.mem_cons_self t ts2)
    have hts2 : ∀ u ∈ ts2, u ≠ [] ∧ ∀ c ∈ u, isWs c = false :=
      fun u hu => hts u (List.mem_cons_of_mem t hu)
    cases ts2 with
    | nil =>
      rw [joinSp_single] at hc
      exact ht.2 c (List.mem_reverse.mp (List.mem_of_mem_head? hc))
    | cons b ts3 =>
      have hJ := joinSp_ne_nil b ts3 (hts2 b (List.mem_cons_self b ts3)).1
      rw [joinSp_cons₂, List.reverse_append, List.reverse_cons,
        List.head?_append] at hc
      cases hJr : (joinSp (b :: ts3)).reverse with
      | nil => exact absurd (List.reverse_eq_nil_iff.mp hJr) hJ
      | cons d ds =>
        have hd := ih hts2 d (by rw [hJr]; rfl)
        rw [hJr] at hc
        have hcd : c = d := by
          simp [List.head?_append] at hc
          exact hc.symm
        rw [hcd]
        exact hd

/-- A good join has no trailing whitespace. -/
theorem rstrip_joinSp (ts : List PyStr)
    (hts : ∀ t ∈ ts, t ≠ [] ∧ ∀ c ∈ t, isWs c = false) :
    rstrip (joinSp ts) = joinSp ts :=
  rstrip_eq_self_of_last _ (joinSp_last_not_ws ts hts)

/-- Stripping is the identity on a good join. -/
theorem pyStrip_joinSp (ts : List PyStr)
    (hts : ∀ t ∈ ts, t ≠ [] ∧ ∀ c ∈ t, isWs c = false) :
    pyStrip (joinSp ts) = joinSp ts := by
  rw [pyStrip, rstrip_joinSp ts hts, lstrip_joinSp ts hts]

/-- Splitting a good join recovers exactly the joined tokens. -/
theorem pySplit_joinSp : ∀ (ts : List PyStr),
    (∀ t ∈ ts, t ≠ [] ∧ ∀ c ∈ t, isWs c = false) →
    pySplit (joinSp ts) = ts := by
  intro ts
  induction ts with
  | nil => intro _; rfl
  | cons t ts2 ih =>
    intro hts
    have ht := hts t (List.mem_cons_self t ts2)
    have hts2 : ∀ u ∈ ts2, u ≠ [] ∧ ∀ c ∈ u, isWs c = false :=
      fun u hu => hts u (List.mem_cons_of_mem t hu)
    have htE : (!t.isEmpty) = true := by
      simp [List.isEmpty_eq_false.mpr ht.1]
    cases ts2 with
    | nil =>
      rw [joinSp_single, pySplit,
        List.splitOnP_eq_single _ _ (fun x hx => by simp [ht.2 x hx]),
        List.filter_cons]
      simp [htE]
    | cons b ts3 =>
      rw [joinSp_cons₂, pySplit,
        List.splitOnP_first isWs t (fun x hx => by simp [ht.2 x hx]) ' '
          (by decide) (joinSp (b :: ts3)),
        List.filter_cons]
      simp only [htE, if_true]
      rw [← pySplit, ih hts2]

/-- `Char.ofNat` round-trips below the surrogate range. -/
theorem charOfNat_toNat (n : ℕ) (h : n < 55296) : (Char.ofNat n).toNat = n := by
  have hv : n.isValidChar := Or.inl h
  simp [Char.ofNat, hv, Char.ofNatAux, Char.toNat]
  rfl

/-- ASCII lowercasing is idempotent. -/
theorem lowerChar_idem (c : Char) : lowerChar (lowerChar c) = lowerChar c := by
  by_cases h : 65 ≤ c.toNat ∧ c.toNat ≤ 90
  · have h1 : lowerChar c = Char.ofNat (c.toNat + 32) := by
      rw [lowerChar, if_pos h]
    have hval : (Char.ofNat (c.toNat + 32)).toNat = c.toNat + 32 :=
      charOfNat_toNat _ (by omega)
    rw [h1, lowerChar, if_neg (by rw [hval]; omega)]
  · have h1 : lowerChar c = c := by rw [lowerChar, if_neg h]
    rw [h1, h1]

/-- The space character is already lowercase. -/
theorem lowerChar_space : lowerChar ' ' = ' ' := by decide

/-- A map that fixes every member fixes the list. -/
theorem map_eq_self_of_eq {α : Type} (f : α → α) :
    ∀ (l : List α), (∀ a ∈ l, f a = a) → l.map f = l := by
  intro l
  induction l with
  | nil => intro _; rfl
  | cons a as ih =>
    intro h
    rw [List.map_cons, h a (List.mem_cons_self a as),
      ih (fun b hb => h b (List.mem_cons_of_mem a hb))]

/-- Characters of a space-join come from its tokens or are the space. -/
theorem mem_joinSp : ∀ (ts : List PyStr) (c : Char),
    c ∈ joinSp ts → c = ' ' ∨ ∃ t ∈ ts, c ∈ t := by
  intro ts
  induction ts with
  | nil => intro c hc; cases hc
  | cons t ts2 ih =>
    intro c hc
    cases ts2 with
    | nil =>
      rw [joinSp_single] at hc
      exact Or.inr ⟨t, List.mem_cons_self t [], hc⟩
    | cons b ts3 =>
      rw [joinSp_cons₂] at hc
      rcases List.mem_append.mp hc with h2 | h2
      · exact Or.inr ⟨t, List.mem_cons_self t (b :: ts3), h2⟩
      · rcases List.mem_cons.mp h2 with h3 | h3
        · exact Or.inl h3
        · rcases ih c h3 with h4 | ⟨u, hu, hcu⟩
          · exact Or.inl h4
          · exact Or.inr ⟨u, List.mem_cons_of_mem t hu, hcu⟩

/-- Characters surviving the stopword stage come from the text or are
the joining space. -/
theorem mem_stageStop (rs : Bool) (stop : List PyStr) (l : PyStr) (c : Char)
    (h : c ∈ stageStop rs stop l) : c ∈ l ∨ c = ' ' := by
  rw [stageStop] at h
  by_cases hrs : rs = true
  · rw [if_pos hrs] at h
    rcases mem_joinSp _ c h with h2 | ⟨t, ht, hct⟩
    · exact Or.inr h2
    · exact Or.inl ((pySplit_tokens l t (List.mem_of_mem_filter ht)).2.2 c hct)
  · rw [if_neg hrs] at h
    exact Or.inl h

/-- Characters surviving the punctuation stage come from the text. -/
theorem mem_stagePunct (rp : Bool) (l : PyStr) (c : Char)
    (h : c ∈ stagePunct rp l) : c ∈ l := by
  rw [stagePunct] at h
  by_cases hrp : rp = true
  · rw [if_pos hrp] at h
    exact List.mem_of_mem_filter h
  · rw [if_neg hrp] at h
    exact h

/-- One full pass of the per-cell pipeline (with no slang mapping applied,
as the empty fold is the identity) is idempotent. -/
theorem cellPipeline_idem (lc rp rs : Bool) (stop : List PyStr) (x : PyStr) :
    pyStrip (collapseWs (stageStop rs stop (stagePunct rp (stageLower lc
      (pyStrip (pyStrip (collapseWs (stageStop rs stop (stagePunct rp
        (stageLower lc (pyStrip x))))))))))) =
    pyStrip (collapseWs (stageStop rs stop (stagePunct rp (stageLower lc
      (pyStrip x))))) := by
  set u := pyStrip x with hu
  set v := stageLower lc u with hv
  set w := stagePunct rp v with hw
  set y := stageStop rs stop w with hy
  set z := collapseWs y with hz
  set o := pyStrip z with ho
  have mem_o : ∀ c ∈ o, (c ∈ w ∨ c = ' ') := by
    intro c hc
    have hcz : c ∈ z := mem_pyStrip z c hc
    rcases mem_collapseAux c y false hcz with h2 | h2
    · rcases mem_stageStop rs stop w c h2 with h3 | h3
      · exact Or.inl h3
      · exact Or.inr h3
    · exact Or.inr h2
  have e1 : pyStrip o = o := by rw [ho, hz]; exact pyStrip_idem _
  have e2 : stageLower lc o = o := by
    rw [stageLower]
    by_cases hlc : lc = true
    · rw [if_pos hlc]
      apply map_eq_self_of_eq
      intro c hc
      rcases mem_o c hc with h2 | h2
      · have h2v : c ∈ v := mem_stagePunct rp v c (hw ▸ h2)
        rw [hv, stageLower, if_pos hlc] at h2v
        obtain ⟨d, _, rfl⟩ := List.mem_map.mp h2v
        exact lowerChar_idem d
      · rw [h2]
        exact lowerChar_space
    · rw [if_neg hlc]
  have e3 : stagePunct rp o = o := by
    rw [stagePunct]
    by_cases hrp : rp = true
    · rw [if_pos hrp]
      apply List.filter_eq_self.mpr
      intro c hc
      rcases mem_o c hc with h2 | h2
      · rw [hw, stagePunct, if_pos hrp] at h2
        exact (List.mem_filter.mp h2).2
      · rw [h2]
        decide
    · rw [if_neg hrp]
  have e5 : collapseWs o = o := by
    apply wsNorm_collapse_eq
    exact wsNorm_infix (wsNorm_collapseWs y) (hz ▸ ho ▸ pyStrip_infix z)
  have e4 : stageStop rs stop o = o := by
    by_cases hrs : rs = true
    · have htok : ∀ t ∈ (pySplit w).filter (fun t => !stop.contains t),
          t ≠ [] ∧ ∀ c ∈ t, isWs c = false := by
        intro t ht
        have h2 := pySplit_tokens w t (List.mem_of_mem_filter ht)
        exact ⟨h2.1, h2.2.1⟩
      have hoy : o = y := by
        rw [ho, hz, hy, stageStop, if_pos hrs, wsNorm_collapse_eq _
          (wsNorm_joinSp _ htok), pyStrip_joinSp _ htok]
      rw [hoy, hy]
      rw [stageStop, if_pos hrs, stageStop, if_pos hrs]
      rw [pySplit_joinSp _ htok]
      rw [List.filter_eq_self.mpr (fun t ht => (List.mem_filter.mp ht).2)]
    · rw [stageStop, if_neg hrs]
  rw [e1, e2, e3, e4, e5, e1]

/-- With no slang mapping, one normalizer pass is a fixed point of the
next unless the first pass produced the literal text `"nan"` (which the
second pass would blank). -/
theorem cellNormStr_fixpoint (lc rp rs : Bool) (stop : List PyStr) (s : PyStr)
    (h : cellNormStr lc rp rs [] stop s ≠ "nan".toList) :
    cellNormStr lc rp rs [] stop (cellNormStr lc rp rs [] stop s) =
      cellNormStr lc rp rs [] stop s := by
  have hnb : nanBlank (cellNormStr lc rp rs [] stop s) =
      cellNormStr lc rp rs [] stop s := by
    rw [nanBlank, if_neg h]
  show pyStrip (collapseWs (stageStop rs stop (stageSlang []
    (stagePunct rp (stageLower lc (pyStrip (nanBlank
      (cellNormStr lc rp rs [] stop s)))))))) =
    cellNormStr lc rp rs [] stop s
  rw [hnb]
  exact cellPipeline_idem lc rp rs stop (nanBlank s)

/-- Reading back a just-written column. -/
theorem getCol_setCol_same (t : Table) (c : String) (d : ColData) :
    getCol (setCol t c d) c = some d := by
  induction t with
  | nil =>
    rw [setCol, getCol, List.find?_cons_of_pos _ (by simp)]
    rfl
  | cons p ps ih =>
    rcases p with ⟨n, d0⟩
    by_cases hn : n = c
    · simp only [setCol, if_pos hn]
      rw [getCol, List.find?_cons_of_pos _ (by simpa using hn)]
      rfl
    · simp only [setCol, if_neg hn]
      rw [getCol, List.find?_cons_of_neg _ (by simpa using hn)]
      exact ih

/-- Writing one column leaves the others unchanged. -/
theorem getCol_setCol_ne (t : Table) (c c2 : String) (d : ColData)
    (h : c2 ≠ c) : getCol (setCol t c d) c2 = getCol t c2 := by
  induction t with
  | nil =>
    rw [setCol, getCol,
      List.find?_cons_of_neg _ (by simpa using fun hh => h hh.symm)]
    rfl
  | cons p ps ih =>
    rcases p with ⟨n, d0⟩
    by_cases hn : n = c
    · have hn2 : ¬(n = c2) := fun hh => h (hh ▸ hn)
      simp only [setCol, if_pos hn]
      rw [getCol, List.find?_cons_of_neg _ (by simpa using hn2), getCol,
        List.find?_cons_of_neg _ (by simpa using hn2)]
    · simp only [setCol, if_neg hn]
      by_cases hn2 : n = c2
      · rw [getCol, List.find?_cons_of_pos _ (by simpa using hn2), getCol,
          List.find?_cons_of_pos _ (by simpa using hn2)]
      · rw [getCol, List.find?_cons_of_neg _ (by simpa using hn2), getCol,
          List.find?_cons_of_neg _ (by simpa using hn2)]
        exact ih

/-- Writing back a column's own current data changes nothing. -/
theorem setCol_self (t : Table) (c : String) (d : ColData)
    (h : getCol t c = some d) : setCol t c d = t := by
  induction t with
  | nil => cases h
  | cons p ps ih =>
    rcases p with ⟨n, d0⟩
    by_cases hn : n = c
    · rw [getCol, List.find?_cons_of_pos _ (by simpa using hn)] at h
      have hd : d0 = d := by simpa using h
      simp [setCol, hn, hd]
    · rw [getCol, List.find?_cons_of_neg _ (by simpa using hn)] at h
      simp only [setCol, if_neg hn]
      rw [ih h]

/-- Retrievable columns are contained. -/
theorem getCol_hasCol (t : Table) (c : String) (d : ColData)
    (h : getCol t c = some d) : hasCol t c = true := by
  have hm := getCol_mem t c d h
  have h2 : c ∈ t.map Prod.fst := List.mem_map_of_mem Prod.fst hm
  rw [hasCol, colNames]
  simpa using h2

/-- Overwriting an existing column keeps the column names. -/
theorem colNames_setCol (t : Table) (c : String) (d : ColData)
    (h : hasCol t c = true) : colNames (setCol t c d) = colNames t := by
  induction t with
  | nil => simp [hasCol, colNames] at h
  | cons p ps ih =>
    rcases p with ⟨n, d0⟩
    by_cases hn : n = c
    · simp [setCol, hn, colNames]
    · have h2 : hasCol ps c = true := by
        rw [hasCol, colNames] at h
        simp only [List.map_cons, List.contains_cons] at h
        rcases Bool.or_eq_true_iff.mp h with h1 | h1
        · have hcp : c = n := by simpa using h1
          exact absurd hcp.symm hn
        · exact h1
      have h3 := ih h2
      rw [colNames, colNames] at h3
      simp only [setCol, if_neg hn, colNames, List.map_cons]
      rw [h3]

/-- Processing a text column keeps the column names. -/
theorem processTextCol_names (lc rp rs : Bool) (slang : List (PyStr × PyStr))
    (stop : List PyStr) (t : Table) (c : String) :
    colNames (processTextCol lc rp rs slang stop t c) = colNames t := by
  rw [processTextCol]
  cases hg : getCol t c with
  | none => rfl
  | some d =>
    cases d with
    | strs vs => exact colNames_setCol t c _ (getCol_hasCol t c _ hg)
    | nums vs => rfl
    | bools vs => rfl

/-- The normalizer's column fold keeps the column names. -/
theorem foldl_processTextCol_names (lc rp rs : Bool)
    (slang : List (PyStr × PyStr)) (stop : List PyStr) :
    ∀ (cols : List String) (t : Table),
    colNames (cols.foldl (processTextCol lc rp rs slang stop) t) = colNames t := by
  intro cols
  induction cols with
  | nil => intro t; rfl
  | cons c0 cs ih =>
    intro t
    rw [List.foldl_cons, ih, processTextCol_names]

/-- Columns outside the processed list are untouched by the fold. -/
theorem getCol_foldl_not_mem (lc rp rs : Bool)
    (slang : List (PyStr × PyStr)) (stop : List PyStr) :
    ∀ (cols : List String) (t : Table) (c : String), c ∉ cols →
    getCol (cols.foldl (processTextCol lc rp rs slang stop) t) c = getCol t c := by
  intro cols
  induction cols with
  | nil => intro t c _; rfl
  | cons c0 cs ih =>
    intro t c hc
    have hne : c ≠ c0 := fun hh => hc (hh ▸ List.mem_cons_self c0 cs)
    have hcs : c ∉ cs := fun hh => hc (List.mem_cons_of_mem c0 hh)
    rw [List.foldl_cons, ih _ c hcs, processTextCol]
    cases hg : getCol t c0 with
    | none => rfl
    | some d =>
      cases d with
      | strs vs => exact getCol_setCol_ne t c0 c _ hne
      | nums vs => rfl
      | bools vs => rfl

/-- Processing any column preserves "this column is of text dtype". -/
theorem processTextCol_strs (lc rp rs : Bool)
    (slang : List (PyStr × PyStr)) (stop : List PyStr) (t : Table)
    (c c2 : String) (hs : ∃ vs, getCol t c = some (.strs vs)) :
    ∃ vs, getCol (processTextCol lc rp rs slang stop t c2) c =
      some (.strs vs) := by
  rw [processTextCol]
  cases hg : getCol t c2 with
  | none => exact hs
  | some d =>
    cases d with
    | strs vs2 =>
      by_cases hcc : c = c2
      · subst hcc
        exact ⟨_, getCol_setCol_same t c _⟩
      · rw [getCol_setCol_ne t c2 c _ hcc]
        exact hs
    | nums vs2 => exact hs
    | bools vs2 => exact hs

/-- After the normalizer's fold, every listed text column holds only
cells produced by the per-cell pipeline. -/
theorem fold_strs_range (lc rp rs : Bool) (slang : List (PyStr × PyStr))
    (stop : List PyStr) :
    ∀ (cols : List String) (t : Table),
    (∀ c ∈ cols, ∃ vs, getCol t c = some (.strs vs)) →
    ∀ c ∈ cols,
      ∃ vs, getCol (cols.foldl (processTextCol lc rp rs slang stop) t) c =
        some (.strs vs) ∧
      ∀ cell ∈ vs, ∃ u, cell = some (cellNormStr lc rp rs slang stop u) := by
  intro cols
  induction cols with
  | nil => intro t _ c hc; cases hc
  | cons c0 cs ih =>
    intro t hstrs c hc
    have hstrs2 : ∀ c2 ∈ cs, ∃ vs,
        getCol (processTextCol lc rp rs slang stop t c0) c2 =
          some (.strs vs) :=
      fun c2 h2 => processTextCol_strs lc rp rs slang stop t c2 c0
        (hstrs c2 (List.mem_cons_of_mem c0 h2))
    rw [List.foldl_cons]
    by_cases hmem : c ∈ cs
    · exact ih (processTextCol lc rp rs slang stop t c0) hstrs2 c hmem
    · have hc0 : c = c0 := by
        rcases List.mem_cons.mp hc with h2 | h2
        · exact h2
        · exact absurd h2 hmem
      subst hc0
      rw [getCol_foldl_not_mem lc rp rs slang stop cs _ c hmem]
      obtain ⟨vs0, hvs0⟩ := hstrs c hc
      rw [processTextCol, hvs0, getCol_setCol_same]
      exact ⟨_, rfl, fun cell hcell => by
        obtain ⟨u, _, rfl⟩ := List.mem_map.mp hcell
        exact ⟨pyStrCell u, rfl⟩⟩

/-- The normalizer's fold is the identity when every listed text column
is already pointwise fixed by the per-cell pipeline. -/
theorem foldl_processTextCol_id (lc rp rs : Bool) (stop : List PyStr)
    (t1 : Table) :
    ∀ (cols : List String),
    (∀ c ∈ cols, ∀ vs, getCol t1 c = some (.strs vs) →
      vs.map (fun cell => some (cellNorm lc rp rs [] stop cell)) = vs) →
    cols.foldl (processTextCol lc rp rs [] stop) t1 = t1 := by
  intro cols
  induction cols with
  | nil => intro _; rfl
  | cons c0 cs ih =>
    intro h
    have hstep : processTextCol lc rp rs [] stop t1 c0 = t1 := by
      rw [processTextCol]
      cases hg : getCol t1 c0 with
      | none => rfl
      | some d =>
        cases d with
        | strs vs =>
          show setCol t1 c0
            (ColData.strs
              (vs.map (fun cell => some (cellNorm lc rp rs [] stop cell)))) = t1
          rw [h c0 (List.mem_cons_self c0 cs) vs hg]
          exact setCol_self t1 c0 (.strs vs) hg
        | nums vs => rfl
        | bools vs => rfl
    rw [List.foldl_cons, hstep]
    exact ih (fun c hc => h c (List.mem_cons_of_mem c0 hc))

/-- Reading the decidable no-`"nan"`-cells check. -/
theorem noNanCells_spec (t : Table) (cols : List String)
    (h : noNanCells t cols = true) :
    ∀ c ∈ cols, ∀ vs, getCol t c = some (.strs vs) →
    ∀ cell ∈ vs, cell ≠ some ("nan".toList) := by
  intro c hc vs hvs cell hcell
  have h2 := List.all_eq_true.mp h c hc
  rw [hvs] at h2
  have h3 := List.all_eq_true.mp h2 cell hcell
  simpa using h3

/-- Inversion of a successful `normalize_text` run. -/
theorem normalize_ok_inv (stopSet : List PyStr) (nltkOk : Bool) (df : Table)
    (columns : List String) (lc rp rs : Bool)
    (slang : List (PyStr × PyStr)) (t1 : Table)
    (h : normalize_text stopSet nltkOk df columns lc rp rs slang = .ok t1) :
    missingCols columns df = [] ∧
    columns.find?
      (fun c => !(((getCol df c).map ColData.isTextDtype).getD false)) = none ∧
    t1 = columns.foldl
      (processTextCol lc rp (rs && nltkOk) slang
        (if rs && nltkOk then stopSet else [])) df := by
  by_cases h1 : missingCols columns df = []
  · cases h2 : columns.find?
        (fun c => !(((getCol df c).map ColData.isTextDtype).getD false)) with
    | some c => simp [normalize_text, h1, h2] at h
    | none =>
      simp only [normalize_text, h1, h2, ne_eq, not_true_eq_false,
        Bool.false_eq_true, if_false, reduceCtorEq] at h
      refine ⟨h1, rfl, ?_⟩
      simpa using h.symm
  · simp [normalize_text, h1] at h

/-- C6 counterexample: the normalizer is NOT idempotent in general.
With a slang dictionary mapping "u" to "you", the first run turns the cell
"u" into "you" and a second identical run turns "you" into "yoyou" (slang
replacement re-fires on its own output). Independently, with lowercasing on
and no slang, the cell "NAN" normalizes to "nan" on the first run, and the
second run blanks it to "" (the astype(str)/fillna nan-marker quirk), so the
first output is not a fixed point in either case. -/
theorem C6_counterexample :
    (normalize_text [] false [("t", ColData.strs [some ("u".toList)])] ["t"]
        false false false [(("u".toList : PyStr), ("you".toList : PyStr))] =
      .ok [("t", ColData.strs [some ("you".toList)])]) ∧
    (normalize_text [] false [("t", ColData.strs [some ("you".toList)])] ["t"]
        false false false [(("u".toList : PyStr), ("you".toList : PyStr))] =
      .ok [("t", ColData.strs [some ("yoyou".toList)])]) ∧
    (("yoyou".toList : PyStr) ≠ "you".toList) ∧
    (normalize_text [] false [("t", ColData.strs [some ("NAN".toList)])] ["t"]
        true false false [] =
      .ok [("t", ColData.strs [some ("nan".toList)])]) ∧
    (normalize_text [] false [("t", ColData.strs [some ("nan".toList)])] ["t"]
        true false false [] =
      .ok [("t", ColData.strs [some ([] : PyStr)])]) ∧
    (("nan".toList : PyStr) ≠ []) := by
  refine ⟨?_, ?_, by decide, by decide, by decide, by decide⟩
  · simp [normalize_text, missingCols, hasCol, colNames, getCol,
      ColData.isTextDtype, processTextCol, setCol, cellNorm, cellNormStr,
      pyStrCell, nanBlank, stageLower, stagePunct, stageSlang, stageStop,
      pyReplace, pyStrip, lstrip, rstrip, collapseWs, collapseAux, isWs]
  · simp [normalize_text, missingCols, hasCol, colNames, getCol,
      ColData.isTextDtype, processTextCol, setCol, cellNorm, cellNormStr,
      pyStrCell, nanBlank, stageLower, stagePunct, stageSlang, stageStop,
      pyReplace, pyStrip, lstrip, rstrip, collapseWs, collapseAux, isWs]

/-- C6 (amended): with an EMPTY slang dictionary the normalizer is
idempotent on its own successful output, provided no output cell is the
literal string "nan": re-running `normalize_text` with identical
parameters on the first run's output returns that output unchanged. -/
theorem C6_idempotent_no_slang (stopSet : List PyStr) (nltkOk : Bool)
    (df : Table) (columns : List String) (lc rp rs : Bool) (t1 : Table)
    (h1 : normalize_text stopSet nltkOk df columns lc rp rs [] = .ok t1)
    (hnan : noNanCells t1 columns = true) :
    normalize_text stopSet nltkOk t1 columns lc rp rs [] = .ok t1 := by
  obtain ⟨hmiss, hfind, ht1⟩ :=
    normalize_ok_inv stopSet nltkOk df columns lc rp rs [] t1 h1
  have hstrs0 : ∀ c ∈ columns, ∃ vs, getCol df c = some (.strs vs) := by
    intro c hc
    have h3 := List.find?_eq_none.mp hfind c hc
    cases hg : getCol df c with
    | none => rw [hg] at h3; simp at h3
    | some d =>
      rw [hg] at h3
      cases d with
      | strs vs => exact ⟨vs, rfl⟩
      | nums vs => simp [ColData.isTextDtype] at h3
      | bools vs => simp [ColData.isTextDtype] at h3
  have hrange := fold_strs_range lc rp (rs && nltkOk) []
    (if rs && nltkOk then stopSet else []) columns df hstrs0
  rw [← ht1] at hrange
  have hnames : colNames t1 = colNames df := by
    rw [ht1]
    exact foldl_processTextCol_names lc rp (rs && nltkOk) []
      (if rs && nltkOk then stopSet else []) columns df
  have hmiss1 : missingCols columns t1 = [] := by
    rw [missingCols] at hmiss ⊢
    rw [show (fun c => !hasCol t1 c) = (fun c => !hasCol df c) from
      funext fun c => by rw [hasCol, hasCol, hnames]]
    exact hmiss
  have hfind1 : columns.find?
      (fun c => !(((getCol t1 c).map ColData.isTextDtype).getD false)) =
        none := by
    rw [List.find?_eq_none]
    intro c hc
    obtain ⟨vs, hvs, _⟩ := hrange c hc
    simp [hvs, ColData.isTextDtype]
  have hcells : ∀ c ∈ columns, ∀ vs, getCol t1 c = some (.strs vs) →
      vs.map (fun cell => some (cellNorm lc rp (rs && nltkOk) []
        (if rs && nltkOk then stopSet else []) cell)) = vs := by
    intro c hc vs hvs
    obtain ⟨vs2, hvs2, hcr⟩ := hrange c hc
    rw [hvs] at hvs2
    have hveq : vs = vs2 := by simpa using hvs2
    subst hveq
    apply map_eq_self_of_eq
    intro cell hcell
    obtain ⟨u, hu⟩ := hcr cell hcell
    have hne : cellNormStr lc rp (rs && nltkOk) []
        (if rs && nltkOk then stopSet else []) u ≠ "nan".toList := by
      intro hc2
      have h4 := noNanCells_spec t1 columns hnan c hc vs hvs cell hcell
      rw [hu, hc2] at h4
      exact h4 rfl
    rw [hu]
    show some (cellNormStr lc rp (rs && nltkOk) []
        (if rs && nltkOk then stopSet else [])
        (cellNormStr lc rp (rs && nltkOk) []
          (if rs && nltkOk then stopSet else []) u)) = _
    rw [cellNormStr_fixpoint lc rp (rs && nltkOk)
      (if rs && nltkOk then stopSet else []) u hne]
  have hid := foldl_processTextCol_id lc rp (rs && nltkOk)
    (if rs && nltkOk then stopSet else []) t1 columns hcells
  simp only [normalize_text, hmiss1, ne_eq, not_true_eq_false,
    Bool.false_eq_true, if_false, hfind1, hid]

/-- Witness for C6 (amended): a concrete successful run ("A!" with
lowercasing and punctuation removal normalizes to "a") whose output passes
the no-"nan"-cell check, so a second identical run returns it unchanged. -/
theorem C6_idempotent_no_slang_witness :
    normalize_text [] false [("t", ColData.strs [some ("a".toList)])] ["t"]
      true true false [] = .ok [("t", ColData.strs [some ("a".toList)])] :=
  C6_idempotent_no_slang [] false
    [("t", ColData.strs [some ("A!".toList)])] ["t"] true true false
    [("t", ColData.strs [some ("a".toList)])] (by decide) (by decide)

end SheetPilot
